import Mathlib

/-!
Verification of the flawdcode event decoder and transcript assembler.

The Go source decodes NDJSON lines from a streaming subprocess and assembles
them into renderable chat blocks.  The shallow embedding below models:

* the JSON whitespace re-indenter used by the source via `encoding/json.Indent`
  (a character-level token scanner feeding a validity automaton and an
  indentation emitter, mirroring `indent.go`);
* the decoded view of one stream event, capturing exactly the fields the Go
  source reads out of each raw line with its several `json.Unmarshal` shapes;
* the batch extractor `ExtractBlocks`, the incremental assembler
  (`parseStreamBlock` plus the delta application in `ChatModel.Update`),
  and the finalization step.

All machine strings are Lean `String`s; JSON text is handled as `List Char`.
-/

set_option maxHeartbeats 1000000

namespace Flawdcode

/-! ## Character classes used by the scanner (mirrors `encoding/json` `isSpace`
and the structural characters of the JSON grammar). -/

def isWSChar (c : Char) : Bool :=
  c == ' ' || c == '\t' || c == '\n' || c == '\r'

def isStructuralChar (c : Char) : Bool :=
  c == '\x7b' || c == '\x7d' || c == '[' || c == ']' || c == ',' || c == ':'

def isHexChar (c : Char) : Bool :=
  (48 ≤ c.toNat && c.toNat ≤ 57) || (97 ≤ c.toNat && c.toNat ≤ 102)
    || (65 ≤ c.toNat && c.toNat ≤ 70)

def isDigitChar (c : Char) : Bool :=
  48 ≤ c.toNat && c.toNat ≤ 57

def isEscapeChar (c : Char) : Bool :=
  c == '"' || c == '\\' || c == '/' || c == 'b' || c == 'f' || c == 'n'
    || c == 'r' || c == 't'

/-! ## Primitive (number / keyword) validation, mirroring the number and
literal states of the `encoding/json` scanner. -/

def expTail (r : List Char) : Bool :=
  match r with
  | '+' :: t => !t.isEmpty && t.all isDigitChar
  | '-' :: t => !t.isEmpty && t.all isDigitChar
  | t => !t.isEmpty && t.all isDigitChar

def afterExpPart : List Char → Bool
  | [] => true
  | 'e' :: r => expTail r
  | 'E' :: r => expTail r
  | _ => false

def afterIntPart : List Char → Bool
  | [] => true
  | '.' :: r => !(r.takeWhile isDigitChar).isEmpty && afterExpPart (r.dropWhile isDigitChar)
  | r => afterExpPart r

def intRest : List Char → Option (List Char)
  | [] => none
  | '0' :: r => some r
  | c :: r => if isDigitChar c then some (r.dropWhile isDigitChar) else none

def validNumber (s : List Char) : Bool :=
  let s2 := match s with
    | '-' :: t => t
    | t => t
  match intRest s2 with
  | some r => afterIntPart r
  | none => false

def validPrim (s : List Char) : Bool :=
  s == "true".data || s == "false".data || s == "null".data || validNumber s

/-! ## Tokens.  A string token keeps its body spelling (without the two
quotes); a primitive token keeps its raw spelling.  `json.Indent` copies both
verbatim, so keeping spellings makes the emitter byte-faithful. -/

inductive JTok where
  | lbrace
  | rbrace
  | lbrack
  | rbrack
  | comma
  | colon
  | str (body : List Char)
  | prim (spelling : List Char)
deriving DecidableEq, Repr

def structTok (c : Char) : JTok :=
  if c == '\x7b' then .lbrace
  else if c == '\x7d' then .rbrace
  else if c == '[' then .lbrack
  else if c == ']' then .rbrack
  else if c == ',' then .comma
  else .colon

/-! ## The character-level scanner.  It runs as one fold over the input,
mirroring the `encoding/json` scanner states: top level, inside a string
(with escape and `\uXXXX` sub-states), inside a number/keyword run.
`ws` accumulates whitespace seen since the last token character; only the
run at the very end of the input survives as the preserved trailing
whitespace, exactly as `json.Indent` documents. -/

inductive StrMode where
  | normal
  | escaped
  | hex (remaining : Nat)
deriving DecidableEq, Repr

inductive TokMode where
  | top
  | inStr (acc : List Char) (m : StrMode)
  | inPrim (acc : List Char)
deriving DecidableEq, Repr

structure TokSt where
  mode : TokMode
  toks : List JTok
  ws : List Char
deriving DecidableEq, Repr

def stepTok (st : TokSt) (c : Char) : Option TokSt :=
  match st.mode with
  | .top =>
    if isWSChar c then some { st with ws := c :: st.ws }
    else if c == '"' then some { mode := .inStr [] .normal, toks := st.toks, ws := [] }
    else if isStructuralChar c then
      some { mode := .top, toks := structTok c :: st.toks, ws := [] }
    else some { mode := .inPrim [c], toks := st.toks, ws := [] }
  | .inPrim acc =>
    if isWSChar c then
      if validPrim acc.reverse then
        some { mode := .top, toks := .prim acc.reverse :: st.toks, ws := [c] }
      else none
    else if isStructuralChar c then
      if validPrim acc.reverse then
        some { mode := .top, toks := structTok c :: .prim acc.reverse :: st.toks, ws := [] }
      else none
    else some { st with mode := .inPrim (c :: acc) }
  | .inStr acc m =>
    match m with
    | .normal =>
      if c == '"' then some { mode := .top, toks := .str acc.reverse :: st.toks, ws := [] }
      else if c == '\\' then some { st with mode := .inStr (c :: acc) .escaped }
      else if c.toNat < 32 then none
      else some { st with mode := .inStr (c :: acc) .normal }
    | .escaped =>
      if c == 'u' then some { st with mode := .inStr (c :: acc) (.hex 4) }
      else if isEscapeChar c then some { st with mode := .inStr (c :: acc) .normal }
      else none
    | .hex n =>
      if isHexChar c then
        if n ≤ 1 then some { st with mode := .inStr (c :: acc) .normal }
        else some { st with mode := .inStr (c :: acc) (.hex (n - 1)) }
      else none

def stepsTok (st : TokSt) : List Char → Option TokSt
  | [] => some st
  | c :: cs =>
    match stepTok st c with
    | some st2 => stepsTok st2 cs
    | none => none

def finishTok (st : TokSt) : Option (List JTok × List Char) :=
  match st.mode with
  | .top => some (st.toks.reverse, st.ws.reverse)
  | .inPrim acc =>
    if validPrim acc.reverse then some ((JTok.prim acc.reverse :: st.toks).reverse, [])
    else none
  | .inStr _ _ => none

def tokSt0 : TokSt := { mode := .top, toks := [], ws := [] }

def tokenize (l : List Char) : Option (List JTok × List Char) :=
  match stepsTok tokSt0 l with
  | some st => finishTok st
  | none => none

/-! ### Well-formedness of scanned tokens.  `strRun` replays the in-string
transitions of the scanner over a string body (with an unescaped quote or an
invalid escape as failure); a body accepted from `normal` back to `normal`
rescans to the same token.  These predicates are established for every token
the scanner emits and are what the re-scan (idempotence) argument runs on. -/

def strRun : StrMode → List Char → Option StrMode
  | m, [] => some m
  | .normal, c :: r =>
    if c == '"' then none
    else if c == '\\' then strRun .escaped r
    else if c.toNat < 32 then none
    else strRun .normal r
  | .escaped, c :: r =>
    if c == 'u' then strRun (.hex 4) r
    else if isEscapeChar c then strRun .normal r
    else none
  | .hex n, c :: r =>
    if isHexChar c then
      if n ≤ 1 then strRun .normal r else strRun (.hex (n - 1)) r
    else none

/-- A character that neither ends nor structures a primitive run. -/
def plainChar (c : Char) : Bool :=
  !(isWSChar c) && !(isStructuralChar c)

def wfTok : JTok → Prop
  | .str b => strRun .normal b = some .normal
  | .prim p => p ≠ [] ∧ (∀ c, p.head? = some c → c ≠ '"') ∧
      (∀ c ∈ p, plainChar c = true) ∧ validPrim p = true
  | _ => True

/-- The invariant the scanner state maintains: emitted tokens are
well-formed, pending whitespace is whitespace, a pending string body
replays to the current string sub-state, and a pending primitive run is a
non-empty run of plain characters not starting with a quote. -/
def stInv (st : TokSt) : Prop :=
  (∀ t ∈ st.toks, wfTok t) ∧ st.ws.all isWSChar = true ∧
  (∀ acc m, st.mode = .inStr acc m → strRun .normal acc.reverse = some m) ∧
  (∀ acc, st.mode = .inPrim acc → acc ≠ [] ∧
    (∀ c, acc.reverse.head? = some c → c ≠ '"') ∧ (∀ c ∈ acc, plainChar c = true))

/-! ## Grammar validity over the token stream: the pushdown automaton of the
`encoding/json` scanner, at token granularity.  `json.Indent` fails exactly
when the scanner signals an error, i.e. when the token stream is not one
complete JSON value. -/

inductive GFrame where
  | fObj
  | fArr
deriving DecidableEq, Repr

inductive GMode where
  | value
  | keyOrEnd
  | keyRequired
  | colonExpected
  | commaOrEndObj
  | commaOrEndArr
  | valueOrEnd
  | done
deriving DecidableEq, Repr

structure GSt where
  stack : List GFrame
  mode : GMode
deriving DecidableEq, Repr

def afterValueMode : List GFrame → GMode
  | [] => .done
  | .fObj :: _ => .commaOrEndObj
  | .fArr :: _ => .commaOrEndArr

def startValue (stack : List GFrame) (t : JTok) : Option GSt :=
  match t with
  | .prim _ => some ⟨stack, afterValueMode stack⟩
  | .str _ => some ⟨stack, afterValueMode stack⟩
  | .lbrace => some ⟨.fObj :: stack, .keyOrEnd⟩
  | .lbrack => some ⟨.fArr :: stack, .valueOrEnd⟩
  | _ => none

def gStep (g : GSt) (t : JTok) : Option GSt :=
  match g.mode, t with
  | .value, tok => startValue g.stack tok
  | .valueOrEnd, .rbrack =>
    (match g.stack with
     | .fArr :: rest => some ⟨rest, afterValueMode rest⟩
     | _ => none)
  | .valueOrEnd, tok => startValue g.stack tok
  | .keyOrEnd, .str _ => some ⟨g.stack, .colonExpected⟩
  | .keyOrEnd, .rbrace =>
    (match g.stack with
     | .fObj :: rest => some ⟨rest, afterValueMode rest⟩
     | _ => none)
  | .keyRequired, .str _ => some ⟨g.stack, .colonExpected⟩
  | .colonExpected, .colon => some ⟨g.stack, .value⟩
  | .commaOrEndObj, .comma => some ⟨g.stack, .keyRequired⟩
  | .commaOrEndObj, .rbrace =>
    (match g.stack with
     | .fObj :: rest => some ⟨rest, afterValueMode rest⟩
     | _ => none)
  | .commaOrEndArr, .comma => some ⟨g.stack, .value⟩
  | .commaOrEndArr, .rbrack =>
    (match g.stack with
     | .fArr :: rest => some ⟨rest, afterValueMode rest⟩
     | _ => none)
  | _, _ => none

def gRun (g : GSt) : List JTok → Option GSt
  | [] => some g
  | t :: ts =>
    match gStep g t with
    | some g2 => gRun g2 ts
    | none => none

def gSt0 : GSt := ⟨[], .value⟩

def checkJSON (ts : List JTok) : Bool :=
  gRun gSt0 ts == some ⟨[], .done⟩

/-! ## The indentation emitter, mirroring `appendIndent` of `indent.go` with
`prefix = ""` and `indent = "  "`: two spaces per nesting level, newline
before each element, empty composites kept on one line via the delayed
`needIndent` flag. -/

structure EmitSt where
  depth : Nat
  needIndent : Bool
deriving DecidableEq, Repr

def nlIndent (depth : Nat) : List Char :=
  '\n' :: List.replicate (2 * depth) ' '

def emitTok (e : EmitSt) (t : JTok) : List Char × EmitSt :=
  let d := if e.needIndent then e.depth + 1 else e.depth
  let pre := if e.needIndent then nlIndent d else []
  match t with
  | .rbrace =>
    if e.needIndent then (['\x7d'], ⟨e.depth, false⟩)
    else (nlIndent (e.depth - 1) ++ ['\x7d'], ⟨e.depth - 1, false⟩)
  | .rbrack =>
    if e.needIndent then ([']'], ⟨e.depth, false⟩)
    else (nlIndent (e.depth - 1) ++ [']'], ⟨e.depth - 1, false⟩)
  | .lbrace => (pre ++ ['\x7b'], ⟨d, true⟩)
  | .lbrack => (pre ++ ['['], ⟨d, true⟩)
  | .comma => (pre ++ ',' :: nlIndent d, ⟨d, false⟩)
  | .colon => (pre ++ [':', ' '], ⟨d, false⟩)
  | .str b => (pre ++ '"' :: (b ++ ['"']), ⟨d, false⟩)
  | .prim p => (pre ++ p, ⟨d, false⟩)

def emitToks (e : EmitSt) : List JTok → List Char
  | [] => []
  | t :: ts => (emitTok e t).1 ++ emitToks (emitTok e t).2 ts

def emitSt0 : EmitSt := ⟨0, false⟩

/-- The pending whitespace a token's emitted chunk leaves behind: a comma is
followed by a newline and indentation, a colon by one space, anything else
ends on its own last character. -/
def wsResidue (e : EmitSt) : JTok → List Char
  | .comma => (nlIndent (if e.needIndent then e.depth + 1 else e.depth)).reverse
  | .colon => [' ']
  | _ => []


/-- `json.Indent(dst, src, "", "  ")` as used throughout the source: `none`
when the scanner rejects `src`, otherwise the re-indented text with the
trailing whitespace of `src` preserved. -/
def indentGo (s : String) : Option String :=
  match tokenize s.data with
  | some (ts, trail) =>
    if checkJSON ts then some ((emitToks emitSt0 ts ++ trail).asString) else none
  | none => none

/-- `prettyJSON` of `cmd/mousetest/main.go`: indent, falling back to the raw
string when `json.Indent` reports an error. -/
def prettyJSON (raw : String) : String :=
  match indentGo raw with
  | some t => t
  | none => raw

/-! ## A tree view of a token stream, used only to model the two
`json.Unmarshal` calls that read fields out of a Task input object
(`parseTaskInput`).  Spellings are kept; field values are unescaped on
extraction. -/

inductive Json where
  | prim (spelling : List Char)
  | str (body : List Char)
  | arr (elems : List Json)
  | obj (fields : List (List Char × Json))

mutual

def toTreeVal : Nat → List JTok → Option (Json × List JTok)
  | 0, _ => none
  | _ + 1, [] => none
  | fuel + 1, t :: ts =>
    match t with
    | .prim p => some (.prim p, ts)
    | .str b => some (.str b, ts)
    | .lbrack =>
      (match ts with
       | .rbrack :: rest => some (.arr [], rest)
       | _ => toTreeElems fuel ts [])
    | .lbrace =>
      (match ts with
       | .rbrace :: rest => some (.obj [], rest)
       | _ => toTreeFields fuel ts [])
    | _ => none

def toTreeElems : Nat → List JTok → List Json → Option (Json × List JTok)
  | 0, _, _ => none
  | fuel + 1, ts, acc =>
    match toTreeVal fuel ts with
    | some (v, rest) =>
      (match rest with
       | .comma :: rest2 => toTreeElems fuel rest2 (v :: acc)
       | .rbrack :: rest2 => some (.arr (v :: acc).reverse, rest2)
       | _ => none)
    | none => none

def toTreeFields : Nat → List JTok → List (List Char × Json) → Option (Json × List JTok)
  | 0, _, _ => none
  | fuel + 1, ts, acc =>
    match ts with
    | .str k :: .colon :: rest =>
      (match toTreeVal fuel rest with
       | some (v, rest2) =>
         (match rest2 with
          | .comma :: rest3 => toTreeFields fuel rest3 ((k, v) :: acc)
          | .rbrace :: rest3 => some (.obj ((k, v) :: acc).reverse, rest3)
          | _ => none)
       | none => none)
    | _ => none

end

/-- Parse a complete JSON document, as `json.Unmarshal` requires: one value,
nothing but whitespace after it. -/
def jsonParse (s : String) : Option Json :=
  match tokenize s.data with
  | some (ts, _) =>
    (match toTreeVal (ts.length + 1) ts with
     | some (j, []) => some j
     | _ => none)
  | none => none

def hexVal (c : Char) : Nat :=
  if 48 ≤ c.toNat && c.toNat ≤ 57 then c.toNat - 48
  else if 97 ≤ c.toNat && c.toNat ≤ 102 then c.toNat - 87
  else if 65 ≤ c.toNat && c.toNat ≤ 70 then c.toNat - 55
  else 0

/-- Unescape a JSON string body (best effort on `\uXXXX`, which Go decodes to
the corresponding code point). -/
def unescapeBody : List Char → List Char
  | [] => []
  | '\\' :: 'u' :: h1 :: h2 :: h3 :: h4 :: rest =>
    Char.ofNat (((hexVal h1 * 16 + hexVal h2) * 16 + hexVal h3) * 16 + hexVal h4)
      :: unescapeBody rest
  | '\\' :: c :: rest =>
    (if c == 'b' then '\x08'
     else if c == 'f' then '\x0c'
     else if c == 'n' then '\n'
     else if c == 'r' then '\r'
     else if c == 't' then '\t'
     else c) :: unescapeBody rest
  | c :: rest => c :: unescapeBody rest

def asciiLower (c : Char) : Char :=
  if 65 ≤ c.toNat && c.toNat ≤ 90 then Char.ofNat (c.toNat + 32) else c

def lowerKey (k : List Char) : String :=
  ((unescapeBody k).map asciiLower).asString

structure TaskFields where
  description : String
  subagentType : String
  prompt : String
deriving DecidableEq, Repr

/-- Decode one object member into the three-field Task input struct:
string values assign (Go matches struct fields case-insensitively and lets a
later duplicate key win), `null` leaves the field unchanged, any other value
type makes the whole `json.Unmarshal` fail. -/
def applyTaskField (acc : Option TaskFields) (kv : List Char × Json) : Option TaskFields :=
  match acc with
  | none => none
  | some f =>
    let k := lowerKey kv.1
    if k = "description" then
      match kv.2 with
      | .str b => some { f with description := (unescapeBody b).asString }
      | .prim p => if p == "null".data then some f else none
      | _ => none
    else if k = "subagent_type" then
      match kv.2 with
      | .str b => some { f with subagentType := (unescapeBody b).asString }
      | .prim p => if p == "null".data then some f else none
      | _ => none
    else if k = "prompt" then
      match kv.2 with
      | .str b => some { f with prompt := (unescapeBody b).asString }
      | .prim p => if p == "null".data then some f else none
      | _ => none
    else some f

/-- The anonymous-struct `json.Unmarshal` inside `parseTaskInput`: `none`
exactly when Go would report an error (so the caller leaves the block
untouched). -/
def parseTaskFields (s : String) : Option TaskFields :=
  match jsonParse s with
  | some (.obj fields) => fields.foldl applyTaskField (some ⟨"", "", ""⟩)
  | some (.prim p) => if p == "null".data then some ⟨"", "", ""⟩ else none
  | _ => none

/-! ## The block data model (`ChatBlock` of `chat.go` / `cmd/mousetest`).
`TaskSubBlocks` makes the Go struct recursive, so the Lean counterpart is an
inductive with one constructor and explicit projections. -/

structure TaskResultMeta where
  agentID : String
  totalDurationMs : Int
  totalTokens : Int
  totalToolUseCount : Int
deriving DecidableEq, Repr

inductive ChatBlock where
  | mk
    (kind : String)
    (text : String)
    (toolName : String)
    (toolID : String)
    (toolInput : String)
    (toolOutput : String)
    (isError : Bool)
    (isTask : Bool)
    (taskDescription : String)
    (taskSubagentType : String)
    (taskPrompt : String)
    (taskSubBlocks : List ChatBlock)
    (taskMeta : Option TaskResultMeta)

def ChatBlock.kind : ChatBlock → String
  | ⟨k, _, _, _, _, _, _, _, _, _, _, _, _⟩ => k

def ChatBlock.text : ChatBlock → String
  | ⟨_, t, _, _, _, _, _, _, _, _, _, _, _⟩ => t

def ChatBlock.toolName : ChatBlock → String
  | ⟨_, _, n, _, _, _, _, _, _, _, _, _, _⟩ => n

def ChatBlock.toolID : ChatBlock → String
  | ⟨_, _, _, i, _, _, _, _, _, _, _, _, _⟩ => i

def ChatBlock.toolInput : ChatBlock → String
  | ⟨_, _, _, _, inp, _, _, _, _, _, _, _, _⟩ => inp

def ChatBlock.toolOutput : ChatBlock → String
  | ⟨_, _, _, _, _, out, _, _, _, _, _, _, _⟩ => out

def ChatBlock.isError : ChatBlock → Bool
  | ⟨_, _, _, _, _, _, e, _, _, _, _, _, _⟩ => e

def ChatBlock.isTask : ChatBlock → Bool
  | ⟨_, _, _, _, _, _, _, task, _, _, _, _, _⟩ => task

def ChatBlock.taskDescription : ChatBlock → String
  | ⟨_, _, _, _, _, _, _, _, d, _, _, _, _⟩ => d

def ChatBlock.taskSubagentType : ChatBlock → String
  | ⟨_, _, _, _, _, _, _, _, _, st, _, _, _⟩ => st

def ChatBlock.taskPrompt : ChatBlock → String
  | ⟨_, _, _, _, _, _, _, _, _, _, p, _, _⟩ => p

def ChatBlock.taskSubBlocks : ChatBlock → List ChatBlock
  | ⟨_, _, _, _, _, _, _, _, _, _, _, sub, _⟩ => sub

def ChatBlock.taskMeta : ChatBlock → Option TaskResultMeta
  | ⟨_, _, _, _, _, _, _, _, _, _, _, _, m⟩ => m

def ChatBlock.appendText (b : ChatBlock) (s : String) : ChatBlock :=
  match b with
  | ⟨k, t, tn, ti, inp, out, ie, it, d, st, p, sub, m⟩ =>
    ⟨k, t ++ s, tn, ti, inp, out, ie, it, d, st, p, sub, m⟩

def ChatBlock.appendToolInput (b : ChatBlock) (s : String) : ChatBlock :=
  match b with
  | ⟨k, t, tn, ti, inp, out, ie, it, d, st, p, sub, m⟩ =>
    ⟨k, t, tn, ti, inp ++ s, out, ie, it, d, st, p, sub, m⟩

def ChatBlock.setToolInput (b : ChatBlock) (s : String) : ChatBlock :=
  match b with
  | ⟨k, t, tn, ti, _, out, ie, it, d, st, p, sub, m⟩ =>
    ⟨k, t, tn, ti, s, out, ie, it, d, st, p, sub, m⟩

def ChatBlock.appendSubBlock (b : ChatBlock) (sb : ChatBlock) : ChatBlock :=
  match b with
  | ⟨k, t, tn, ti, inp, out, ie, it, d, st, p, sub, m⟩ =>
    ⟨k, t, tn, ti, inp, out, ie, it, d, st, p, sub ++ [sb], m⟩

def ChatBlock.setTaskMeta (b : ChatBlock) (meta : Option TaskResultMeta) : ChatBlock :=
  match b with
  | ⟨k, t, tn, ti, inp, out, ie, it, d, st, p, sub, _⟩ =>
    ⟨k, t, tn, ti, inp, out, ie, it, d, st, p, sub, meta⟩

def ChatBlock.setTaskFields (b : ChatBlock) (d2 st2 p2 : String) : ChatBlock :=
  match b with
  | ⟨k, t, tn, ti, inp, out, ie, it, _, _, _, sub, m⟩ =>
    ⟨k, t, tn, ti, inp, out, ie, it, d2, st2, p2, sub, m⟩

def emptyChatBlock : ChatBlock :=
  ⟨"", "", "", "", "", "", false, false, "", "", "", [], none⟩

/-- A text block as built by the source (`ChatBlock{Kind: "text", Text: t}`). -/
def textBlock (t : String) : ChatBlock :=
  ⟨"text", t, "", "", "", "", false, false, "", "", "", [], none⟩

def emptyTextBlock : ChatBlock := textBlock ""

/-- A tool-use block with an explicit delegation flag. -/
def toolUseBlockT (name id input : String) (isTask : Bool) : ChatBlock :=
  ⟨"tool_use", "", name, id, input, "", false, isTask, "", "", "", [], none⟩

/-- A tool-result block (`ChatBlock{Kind: "tool_result", ...}`). -/
def toolResultBlock (id output : String) (isError : Bool) : ChatBlock :=
  ⟨"tool_result", "", "", id, "", output, isError, false, "", "", "", [], none⟩

/-- In-place update of one list element, the counterpart of Go mutating
`blocks[i]` through an index. -/
def modifyAt {α : Type} : List α → Nat → (α → α) → List α
  | [], _, _ => []
  | a :: as, 0, f => f a :: as
  | a :: as, n + 1, f => a :: modifyAt as n f

/-- `findTaskBlockIndex`: first index whose block is a delegation (Task)
tool-use with the given correlation id, scanning front to back. -/
def findTaskBlockIndexAux (toolID : String) : List ChatBlock → Nat → Option Nat
  | [], _ => none
  | b :: bs, i =>
    if b.kind = "tool_use" ∧ b.isTask = true ∧ b.toolID = toolID then some i
    else findTaskBlockIndexAux toolID bs (i + 1)

def findTaskBlockIndex (blocks : List ChatBlock) (toolID : String) : Option Nat :=
  findTaskBlockIndexAux toolID blocks 0

/-- `lastBlockIndex`: index of the last block with the given kind, scanning
back to front in the source. -/
def lastBlockIndexAux (kind : String) : List ChatBlock → Nat → Option Nat
  | [], _ => none
  | b :: bs, i =>
    match lastBlockIndexAux kind bs (i + 1) with
    | some j => some j
    | none => if b.kind = kind then some i else none

def lastBlockIndex (blocks : List ChatBlock) (kind : String) : Option Nat :=
  lastBlockIndexAux kind blocks 0

/-! ## Decoded events.  Each Go access pattern re-unmarshals the raw line
into an ad hoc anonymous struct; the event model records the result of each
of those decodes (with `none` for a failing unmarshal), which is exactly the
information the assembler consumes. -/

/-- One item of a decoded `message.content` array under the assistant shape
(Go `ContentBlock`).  `input` is the raw spelling of the `json.RawMessage`,
with `""` for an absent field (`len(block.Input) == 0`). -/
structure ContentItem where
  type_ : String
  text : String
  id : String
  name : String
  input : String
deriving DecidableEq, Repr

/-- One element of a decoded tool-result `content` array value. -/
inductive RItem where
  | textItem (t : String)
  | other
deriving DecidableEq, Repr

/-- The decoded `content any` of a tool-result item: a JSON string, an array
of items, or anything else (carried as its `json.MarshalIndent` rendering,
the string the default branch of the extractor produces). -/
inductive RContent where
  | rstr (s : String)
  | rarr (items : List RItem)
  | rother (rendered : String)
deriving DecidableEq, Repr

/-- One item of `message.content` under the user shape. -/
structure UserItem where
  type_ : String
  toolUseID : String
  content : RContent
  isError : Bool
deriving DecidableEq, Repr

/-- The `stream_event` wrapper view used by `parseStreamBlock`
(`event.type` and `event.content_block`). -/
structure SeView where
  eventType : String
  block : ContentItem
deriving DecidableEq, Repr

/-- The wrapper view used by `extractDeltas`
(`event.type` and `event.delta.{type,text,thinking,partial_json}`). -/
structure DeltaView where
  eventType : String
  deltaType : String
  text : String
  thinking : String
  partialJSON : String
deriving DecidableEq, Repr

/-- One decoded NDJSON line.  `parentID` is the result of
`extractParentToolUseID` (already `""` for an absent, null or empty field);
`toolUseResult` is the result of `parseToolUseResult`; `msgModel`,
`msgStopReason` and `msgMetaOk` record the assistant metadata unmarshal of
`parseEventLine`. -/
structure Event where
  type_ : String
  parentID : String
  msgContent : Option (List ContentItem)
  userContent : Option (List UserItem)
  cbsBlock : Option ContentItem
  seView : Option SeView
  deltaView : Option DeltaView
  toolUseResult : Option TaskResultMeta
  msgModel : String
  msgStopReason : String
  msgMetaOk : Bool
deriving DecidableEq, Repr

/-! ## Tool-result content extraction. -/

/-- Concatenate the `text` fields of the array items, skipping non-text
items, as the unfiltered extractor loop does. -/
def concatTexts : List RItem → String
  | [] => ""
  | .textItem t :: rest => t ++ concatTexts rest
  | .other :: rest => concatTexts rest

/-- `strings.HasPrefix(t, "agentId:")`, written over the character lists so
that it evaluates by kernel reduction. -/
def startsWithAgentId (t : String) : Bool :=
  "agentId:".data.isPrefixOf t.data

/-- The same loop with the delegation filter: text fragments whose text
starts with the sentinel `agentId:` are excluded. -/
def stripTexts : List RItem → String
  | [] => ""
  | .textItem t :: rest =>
    if startsWithAgentId t then stripTexts rest else t ++ stripTexts rest
  | .other :: rest => stripTexts rest

/-- `extractToolResultContent` of `chat.go` (no filtering). -/
def extractToolResultContent : RContent → String
  | .rstr s => s
  | .rarr items => concatTexts items
  | .rother r => r

/-- `extractTaskResultContent` of `chat.go` (strips the `agentId:` block). -/
def extractTaskResultContent : RContent → String
  | .rstr s => s
  | .rarr items => stripTexts items
  | .rother r => r

/-- `extractToolResultContent(content, stripAgentID)` of
`cmd/mousetest/main.go`. -/
def extractToolResultContentM (content : RContent) (stripAgentID : Bool) : String :=
  match content with
  | .rstr s => s
  | .rarr items => if stripAgentID then stripTexts items else concatTexts items
  | .rother r => r

/-! ## The delta extractor. -/

structure StreamDeltas where
  text : String
  thinking : String
  inputJSON : String
deriving DecidableEq, Repr

def emptyDeltas : StreamDeltas := ⟨"", "", ""⟩

/-- `extractDeltas`: pure dispatch on the inner delta discriminator of a
decoded `stream_event` wrapper; all-empty on a failed unmarshal, a wrapper
that is not a `content_block_delta`, or an unknown sub-discriminator. -/
def extractDeltas (ev : Event) : StreamDeltas :=
  match ev.deltaView with
  | none => emptyDeltas
  | some w =>
    if w.eventType = "content_block_delta" then
      if w.deltaType = "text_delta" then { text := w.text, thinking := "", inputJSON := "" }
      else if w.deltaType = "thinking_delta" then
        { text := "", thinking := w.thinking, inputJSON := "" }
      else if w.deltaType = "input_json_delta" then
        { text := "", thinking := "", inputJSON := w.partialJSON }
      else emptyDeltas
    else emptyDeltas

/-! ## The incremental transcript assembler (`chat.go`). -/

/-- The streaming part of a `chatEntry`: the block registry plus the two
running raw-text accumulators. -/
structure ChatEntry where
  blocks : List ChatBlock
  streamThinking : String
  streamText : String

def entry0 : ChatEntry := ⟨[], "", ""⟩

/-- `parseTaskInput`: on a successful unmarshal of the input JSON, set the
three derived Task fields; otherwise leave the block untouched. -/
def parseTaskInput (cb : ChatBlock) (rawInput : String) : ChatBlock :=
  match parseTaskFields rawInput with
  | some f => cb.setTaskFields f.description f.subagentType f.prompt
  | none => cb

/-- A nested sub-block for a subagent `tool_use` item: `"{}"` for an absent
input, otherwise the indented (or raw, on indent failure) input. -/
def subToolUse (item : ContentItem) : ChatBlock :=
  let inputStr := if item.input = "" then "\x7b\x7d" else prettyJSON item.input
  toolUseBlockT item.name item.id inputStr false

/-- One top-level user tool-result item in the incremental assembler: a
correlation id matching a delegation closes it (filtered output, metadata
attached), any other id appends an ordinary unfiltered result block. -/
def incrUserTop (tur : Option TaskResultMeta) (bs : List ChatBlock) (item : UserItem) :
    List ChatBlock :=
  if item.type_ = "tool_result" then
    match findTaskBlockIndex bs item.toolUseID with
    | some taskIdx =>
      modifyAt bs taskIdx (fun cb => cb.setTaskMeta tur) ++
        [toolResultBlock item.toolUseID (extractTaskResultContent item.content) item.isError]
    | none =>
      bs ++ [toolResultBlock item.toolUseID (extractToolResultContent item.content) item.isError]
  else bs

/-- `addContentBlock`: open a block from a bare top-level
`content_block_start` announcement.  The announced input payload is not
read: a new tool-use block always starts with empty input. -/
def addContentBlock (entry : ChatEntry) (cbs : Option ContentItem) : ChatEntry :=
  match cbs with
  | none => entry
  | some cb =>
    if cb.type_ = "text" then { entry with blocks := entry.blocks ++ [emptyTextBlock] }
    else if cb.type_ = "tool_use" then
      let opened := toolUseBlockT cb.name cb.id "" (cb.name == "Task")
      { entry with blocks := entry.blocks ++ [opened] }
    else entry

/-- `parseStreamBlock`: route a subagent event (non-empty
`parent_tool_use_id`) into its delegation block, dropping it when no such
delegation exists; otherwise dispatch a top-level `content_block_start`,
wrapped `content_block_start`, or `user` tool-result event. -/
def parseStreamBlock (entry : ChatEntry) (ev : Event) : ChatEntry :=
  if ev.parentID ≠ "" then
    match findTaskBlockIndex entry.blocks ev.parentID with
    | none => entry
    | some taskIdx =>
      let b := entry.blocks.getD taskIdx emptyChatBlock
      let entry1 :=
        if b.taskDescription = "" ∧ b.toolInput ≠ "" then
          let lazyBlocks := modifyAt entry.blocks taskIdx (fun cb => parseTaskInput cb cb.toolInput)
          { entry with blocks := lazyBlocks }
        else entry
      if ev.type_ = "assistant" then
        match ev.msgContent with
        | some items =>
          let subBlocks := modifyAt entry1.blocks taskIdx (fun cb =>
            items.foldl (fun cb2 item =>
              if item.type_ = "tool_use" then cb2.appendSubBlock (subToolUse item)
              else cb2) cb)
          { entry1 with blocks := subBlocks }
        | none => entry1
      else if ev.type_ = "user" then
        match ev.userContent with
        | some items =>
          let subBlocks := modifyAt entry1.blocks taskIdx (fun cb =>
            items.foldl (fun cb2 item =>
              if item.type_ = "tool_result" then
                cb2.appendSubBlock (toolResultBlock item.toolUseID
                  (extractToolResultContent item.content) item.isError)
              else cb2) cb)
          { entry1 with blocks := subBlocks }
        | none => entry1
      else entry1
  else
    if ev.type_ = "content_block_start" then addContentBlock entry ev.cbsBlock
    else if ev.type_ = "stream_event" then
      (match ev.seView with
       | some w =>
         if w.eventType = "content_block_start" then
           if w.block.type_ = "text" then
             { entry with blocks := entry.blocks ++ [emptyTextBlock] }
           else if w.block.type_ = "tool_use" then
             let opened := toolUseBlockT w.block.name w.block.id "" (w.block.name == "Task")
             { entry with blocks := entry.blocks ++ [opened] }
           else entry
         else entry
       | none => entry)
    else if ev.type_ = "user" then
      match ev.userContent with
      | some items =>
        let newBlocks := items.foldl (incrUserTop ev.toolUseResult) entry.blocks
        { entry with blocks := newBlocks }
      | none => entry
    else entry

/-- One step of the `ClaudeStreamChunkMsg` handler of `ChatModel.Update` on
a streaming entry: route the event through `parseStreamBlock`, then apply
the extracted delta fragments (thinking to the running accumulator, text to
the last text block or a fresh one, partial input JSON to the last tool-use
block if any). -/
def streamStep (entry : ChatEntry) (ev : Event) : ChatEntry :=
  let e1 := parseStreamBlock entry ev
  let d := extractDeltas ev
  let e2 :=
    if d.thinking ≠ "" then { e1 with streamThinking := e1.streamThinking ++ d.thinking }
    else e1
  let e3 :=
    if d.text ≠ "" then
      match lastBlockIndex e2.blocks "text" with
      | some i =>
        { e2 with streamText := e2.streamText ++ d.text,
                  blocks := modifyAt e2.blocks i (fun b => b.appendText d.text) }
      | none =>
        { e2 with streamText := e2.streamText ++ d.text,
                  blocks := e2.blocks ++ [textBlock d.text] }
    else e2
  if d.inputJSON ≠ "" then
    match lastBlockIndex e3.blocks "tool_use" with
    | some i => { e3 with blocks := modifyAt e3.blocks i (fun b => b.appendToolInput d.inputJSON) }
    | none => e3
  else e3

/-- The finalization of one block on `ClaudeStreamDoneMsg`: re-indent a
tool-use block with non-empty accumulated input, then re-derive the Task
fields for delegation blocks. -/
def finalizeBlock (b : ChatBlock) : ChatBlock :=
  if b.kind = "tool_use" ∧ b.toolInput ≠ "" then
    let b2 :=
      match indentGo b.toolInput with
      | some t => b.setToolInput t
      | none => b
    if b2.isTask = true then parseTaskInput b2 b2.toolInput else b2
  else b

def finalizeBlocks (bs : List ChatBlock) : List ChatBlock := bs.map finalizeBlock

/-- Feed the events one at a time into a fresh assembler, then finalize. -/
def incrementalAssemble (events : List Event) : List ChatBlock :=
  finalizeBlocks (events.foldl streamStep entry0).blocks

/-! ## The batch extractor (`ExtractBlocks` of `cmd/mousetest/main.go`). -/

def batchAsstTop (blocks : List ChatBlock) (item : ContentItem) : List ChatBlock :=
  if item.type_ = "text" then
    if item.text ≠ "" then blocks ++ [textBlock item.text] else blocks
  else if item.type_ = "tool_use" then
    let inputStr := if item.input = "" then "\x7b\x7d" else prettyJSON item.input
    let cb := toolUseBlockT item.name item.id inputStr (item.name == "Task")
    let cb2 := if item.name == "Task" then parseTaskInput cb inputStr else cb
    blocks ++ [cb2]
  else blocks

/-- One subagent assistant tool-use item of the batch loop: routed into the
matching delegation block, dropped when none matches. -/
def batchAsstSub (parentID : String) (bs : List ChatBlock) (item : ContentItem) :
    List ChatBlock :=
  if item.type_ = "tool_use" then
    let inputStr := if item.input = "" then "\x7b\x7d" else prettyJSON item.input
    match findTaskBlockIndex bs parentID with
    | some idx =>
      modifyAt bs idx (fun cb =>
        cb.appendSubBlock (toolUseBlockT item.name item.id inputStr false))
    | none => bs
  else bs

/-- One subagent user tool-result item of the batch loop. -/
def batchUserSub (parentID : String) (bs : List ChatBlock) (item : UserItem) :
    List ChatBlock :=
  if item.type_ = "tool_result" then
    match findTaskBlockIndex bs parentID with
    | some idx =>
      modifyAt bs idx (fun cb =>
        cb.appendSubBlock (toolResultBlock item.toolUseID
          (extractToolResultContentM item.content false) item.isError))
    | none => bs
  else bs

/-- One top-level user tool-result item of the batch loop. -/
def batchUserTop (tur : Option TaskResultMeta) (bs : List ChatBlock) (item : UserItem) :
    List ChatBlock :=
  if item.type_ = "tool_result" then
    match findTaskBlockIndex bs item.toolUseID with
    | some idx =>
      modifyAt bs idx (fun cb => cb.setTaskMeta tur) ++
        [toolResultBlock item.toolUseID (extractToolResultContentM item.content true) item.isError]
    | none =>
      bs ++ [toolResultBlock item.toolUseID
        (extractToolResultContentM item.content false) item.isError]
  else bs

/-- One event of the batch extractor loop. -/
def batchStep (blocks : List ChatBlock) (ev : Event) : List ChatBlock :=
  if ev.type_ = "assistant" then
    match ev.msgContent with
    | none => blocks
    | some items =>
      if ev.parentID ≠ "" then items.foldl (batchAsstSub ev.parentID) blocks
      else items.foldl batchAsstTop blocks
  else if ev.type_ = "content_block_start" then
    match ev.cbsBlock with
    | some cb =>
      if cb.type_ = "tool_use" then
        let inputStr := if cb.input = "" then "\x7b\x7d" else prettyJSON cb.input
        blocks ++ [toolUseBlockT cb.name cb.id inputStr (cb.name == "Task")]
      else blocks
    | none => blocks
  else if ev.type_ = "user" then
    match ev.userContent with
    | none => blocks
    | some items =>
      if ev.parentID ≠ "" then items.foldl (batchUserSub ev.parentID) blocks
      else items.foldl (batchUserTop ev.toolUseResult) blocks
  else blocks

/-- `ExtractBlocks`: the batch pass over a complete event list. -/
def ExtractBlocks (events : List Event) : List ChatBlock :=
  events.foldl batchStep []

/-! ## The model / stop-reason accumulators of `parseEventLine`. -/

/-- The accumulator-updating effect of `parseEventLine` on one line: a line
that is not valid JSON leaves both untouched; an assistant line whose
metadata unmarshal succeeds assigns each accumulator only from a non-empty
extracted value. -/
def parseEventLineAcc (line : Option Event) (model stopReason : String) : String × String :=
  match line with
  | none => (model, stopReason)
  | some ev =>
    if ev.type_ = "assistant" ∧ ev.msgMetaOk = true then
      ((if ev.msgModel ≠ "" then ev.msgModel else model),
       (if ev.msgStopReason ≠ "" then ev.msgStopReason else stopReason))
    else (model, stopReason)

/-- Decode a whole sequence of lines, threading the two accumulators. -/
def runEventLines (lines : List (Option Event)) (model stopReason : String) : String × String :=
  lines.foldl (fun acc line => parseEventLineAcc line acc.1 acc.2) (model, stopReason)

/-! ## Concrete decoded events, used by the scenario theorems, witnesses and
counterexamples below. -/

/-- A decoded line with every optional view absent. -/
def baseEvent : Event :=
  { type_ := "", parentID := "", msgContent := none, userContent := none,
    cbsBlock := none, seView := none, deltaView := none, toolUseResult := none,
    msgModel := "", msgStopReason := "", msgMetaOk := true }

def emptyContentItem : ContentItem :=
  { type_ := "", text := "", id := "", name := "", input := "" }

/-- `{"type":"assistant","message":{"content":[{"type":"text","text":s}]}}`. -/
def asstTextEv (s : String) : Event :=
  { baseEvent with
    type_ := "assistant",
    msgContent := some [{ type_ := "text", text := s, id := "", name := "", input := "" }] }

/-- `{"type":"content_block_start","content_block":{"type":"tool_use","id":id,"name":name,"input":{}}}`. -/
def cbsToolEv (name id : String) : Event :=
  { baseEvent with
    type_ := "content_block_start",
    cbsBlock := some { type_ := "tool_use", text := "", id := id, name := name, input := "\x7b\x7d" } }

/-- `{"type":"user","message":{"content":[{"type":"tool_result","tool_use_id":id,"content":...,"is_error":false}]}}`. -/
def userResultEv (id : String) (c : RContent) : Event :=
  { baseEvent with
    type_ := "user",
    userContent := some [{ type_ := "tool_result", toolUseID := id, content := c, isError := false }] }

/-- A `stream_event` wrapping a `content_block_delta` of the given
sub-discriminator; the wrapper view seen by `parseStreamBlock` carries the
same inner event type. -/
def deltaEv (deltaType text thinking partialJSON : String) : Event :=
  { baseEvent with
    type_ := "stream_event",
    seView := some { eventType := "content_block_delta", block := emptyContentItem },
    deltaView := some { eventType := "content_block_delta", deltaType := deltaType, text := text, thinking := thinking, partialJSON := partialJSON } }

def textDeltaEv (s : String) : Event := deltaEv "text_delta" s "" ""

def thinkingDeltaEv (s : String) : Event := deltaEv "thinking_delta" "" s ""

def inputDeltaEv (s : String) : Event := deltaEv "input_json_delta" "" "" s

/-- A text delta whose line carries `parent_tool_use_id: "ghost"`. -/
def ghostDeltaEv : Event := { textDeltaEv "hi" with parentID := "ghost" }

/-- A subagent tool-result line with `parent_tool_use_id: "ghost"` and no
delta payload. -/
def ghostUserEv : Event :=
  { userResultEv "t9" (.rstr "ok") with parentID := "ghost" }

/-- An assistant metadata line carrying a model name and stop reason. -/
def asstMetaEv (model stopReason : String) : Event :=
  { baseEvent with type_ := "assistant", msgModel := model, msgStopReason := stopReason }

/-- The content array `[{"text":"agentId:abc"},{"text":"done"}]`. -/
def agentArr : RContent := .rarr [.textItem "agentId:abc", .textItem "done"]

/-- A delegation (Task) tool-use block with id `t1`, as opened by a
block-started announcement. -/
def taskT1 : ChatBlock := toolUseBlockT "Task" "t1" "" true

/-! # Theorems -/

/-! ## Helper lemmas -/

theorem runEventLines_cons (l : Option Event) (ls : List (Option Event)) (m s : String) :
    runEventLines (l :: ls) m s
      = runEventLines ls (parseEventLineAcc l m s).1 (parseEventLineAcc l m s).2 := by
  simp [runEventLines]

theorem parseEventLineAcc_cases (line : Option Event) (m s : String) :
    ((parseEventLineAcc line m s).1 = m ∨ (parseEventLineAcc line m s).1 ≠ "") ∧
    ((parseEventLineAcc line m s).2 = s ∨ (parseEventLineAcc line m s).2 ≠ "") := by
  rcases line with _ | ev
  · simp [parseEventLineAcc]
  · simp only [parseEventLineAcc]
    split_ifs <;> simp_all

/-! ## C4: the delta extractor -/

/-- C4: for every decoded line, the delta extractor returns a 3-tuple
{text, reasoning, partial-tool-input-json} of which at most one component is
non-empty, chosen by the inner delta sub-discriminator (`text_delta` to
text, `thinking_delta` to reasoning, `input_json_delta` to the JSON
fragment); for any other sub-discriminator, a wrapper that is not a
`content_block_delta`, or an input whose wrapper unmarshal fails, all three
components are empty.  The extractor is a pure function of the decoded
line. -/
theorem extractDeltas_discriminates (ev : Event) :
    (((extractDeltas ev).text = "" ∨ (extractDeltas ev).thinking = "") ∧
      ((extractDeltas ev).text = "" ∨ (extractDeltas ev).inputJSON = "") ∧
      ((extractDeltas ev).thinking = "" ∨ (extractDeltas ev).inputJSON = "")) ∧
    (ev.deltaView = none → extractDeltas ev = emptyDeltas) ∧
    (∀ w, ev.deltaView = some w →
      (w.eventType ≠ "content_block_delta" → extractDeltas ev = emptyDeltas) ∧
      (w.eventType = "content_block_delta" →
        (w.deltaType = "text_delta" → extractDeltas ev = ⟨w.text, "", ""⟩) ∧
        (w.deltaType = "thinking_delta" → extractDeltas ev = ⟨"", w.thinking, ""⟩) ∧
        (w.deltaType = "input_json_delta" → extractDeltas ev = ⟨"", "", w.partialJSON⟩) ∧
        (w.deltaType ≠ "text_delta" → w.deltaType ≠ "thinking_delta" →
          w.deltaType ≠ "input_json_delta" → extractDeltas ev = emptyDeltas))) := by
  rcases hdv : ev.deltaView with _ | w
  · simp [extractDeltas, hdv, emptyDeltas]
  · simp only [extractDeltas, hdv]
    constructor
    · split_ifs <;> simp_all [emptyDeltas]
    constructor
    · intro h; cases h
    · intro w2 hw2
      injection hw2 with hww
      subst hww
      constructor
      · intro hne; simp [hne, emptyDeltas]
      · intro heq
        refine ⟨fun h1 => by simp [heq, h1], fun h2 => ?_, fun h3 => ?_, fun n1 n2 n3 => ?_⟩
        · have hnt : w.deltaType ≠ "text_delta" := by simp [h2]
          simp [heq, h2, hnt]
        · have n1 : w.deltaType ≠ "text_delta" := by simp [h3]
          have n2 : w.deltaType ≠ "thinking_delta" := by simp [h3]
          simp [heq, h3, n1, n2]
        · simp [heq, n1, n2, n3, emptyDeltas]

theorem extractDeltas_discriminates_witness :
    extractDeltas (textDeltaEv "hi") = ⟨"hi", "", ""⟩ := by
  have h := (extractDeltas_discriminates (textDeltaEv "hi")).2.2
      { eventType := "content_block_delta", deltaType := "text_delta", text := "hi",
        thinking := "", partialJSON := "" } rfl
  exact (h.2 rfl).1 rfl

/-! ## C7: model / stop-reason accumulators -/

/-- C7: across any sequence of decoded lines, the model and stop-reason
accumulators of the decoder are only ever assigned from non-empty extracted
values (each step either keeps the old value or stores a non-empty one),
so once either accumulator holds a non-empty string, decoding further lines
never resets it to empty. -/
theorem modelStopReason_never_reset :
    (∀ (line : Option Event) (m s : String),
      ((parseEventLineAcc line m s).1 = m ∨ (parseEventLineAcc line m s).1 ≠ "") ∧
      ((parseEventLineAcc line m s).2 = s ∨ (parseEventLineAcc line m s).2 ≠ "")) ∧
    (∀ (lines : List (Option Event)) (m s : String),
      (m ≠ "" → (runEventLines lines m s).1 ≠ "") ∧
      (s ≠ "" → (runEventLines lines m s).2 ≠ "")) := by
  refine ⟨parseEventLineAcc_cases, ?_⟩
  intro lines
  induction lines with
  | nil => intro m s; simp [runEventLines]
  | cons l ls ih =>
    intro m s
    have hstep := parseEventLineAcc_cases l m s
    rw [runEventLines_cons]
    constructor
    · intro hm
      have h1 : (parseEventLineAcc l m s).1 ≠ "" := by
        rcases hstep.1 with h | h
        · rw [h]; exact hm
        · exact h
      exact (ih (parseEventLineAcc l m s).1 (parseEventLineAcc l m s).2).1 h1
    · intro hs
      have h2 : (parseEventLineAcc l m s).2 ≠ "" := by
        rcases hstep.2 with h | h
        · rw [h]; exact hs
        · exact h
      exact (ih (parseEventLineAcc l m s).1 (parseEventLineAcc l m s).2).2 h2

theorem modelStopReason_never_reset_witness :
    (runEventLines [some (asstMetaEv "" ""), none, some baseEvent] "claude-x" "end_turn").1 ≠ ""
      ∧ (runEventLines [some (asstMetaEv "" ""), none, some baseEvent] "claude-x" "end_turn").2 ≠ "" := by
  have h := modelStopReason_never_reset.2
      [some (asstMetaEv "" ""), none, some baseEvent] "claude-x" "end_turn"
  exact ⟨h.1 (by decide), h.2 (by decide)⟩

/-! ## C2: delegation result filtering -/

/-- C2: when a top-level tool result's correlation id matches an existing
delegation (Task) block, its output is extracted with the `agentId:` filter,
so the content array `[{"text":"agentId:abc"},{"text":"done"}]` yields
output `"done"`; when no delegation block matches, the same array yields the
unfiltered concatenation `"agentId:abcdone"`.  Shown both for the extraction
functions themselves (the chat.go pair and the mousetest variant) and for
the user-event handling of the incremental assembler. -/
theorem delegation_result_filtering :
    extractTaskResultContent agentArr = "done" ∧
    extractToolResultContent agentArr = "agentId:abcdone" ∧
    extractToolResultContentM agentArr true = "done" ∧
    extractToolResultContentM agentArr false = "agentId:abcdone" ∧
    (parseStreamBlock { blocks := [taskT1], streamThinking := "", streamText := "" }
        (userResultEv "t1" agentArr)).blocks
      = [taskT1, toolResultBlock "t1" "done" false] ∧
    (parseStreamBlock entry0 (userResultEv "t1" agentArr)).blocks
      = [toolResultBlock "t1" "agentId:abcdone" false] := by
  exact ⟨rfl, rfl, rfl, rfl, rfl, rfl⟩

/-! ## C9: tool pairing scenario -/

/-- C9: for the two-event input of a `content_block_start` announcing the
tool_use `t1` (name Bash) followed by a user event whose tool_result carries
`tool_use_id` `t1` and content `"ok"`, the assembler produces exactly two
blocks in order: a ToolInvocation with id `t1` and a ToolResult whose id is
`t1` with output `"ok"` and no error flag; the batch extractor pairs the
same two blocks by id. -/
theorem tool_pairing_scenario :
    incrementalAssemble [cbsToolEv "Bash" "t1", userResultEv "t1" (.rstr "ok")]
      = [toolUseBlockT "Bash" "t1" "" false, toolResultBlock "t1" "ok" false] ∧
    (ExtractBlocks [cbsToolEv "Bash" "t1", userResultEv "t1" (.rstr "ok")]).map ChatBlock.kind
      = ["tool_use", "tool_result"] ∧
    (ExtractBlocks [cbsToolEv "Bash" "t1", userResultEv "t1" (.rstr "ok")]).map ChatBlock.toolID
      = ["t1", "t1"] ∧
    (ExtractBlocks [cbsToolEv "Bash" "t1", userResultEv "t1" (.rstr "ok")]).map ChatBlock.toolName
      = ["Bash", ""] ∧
    (ExtractBlocks [cbsToolEv "Bash" "t1", userResultEv "t1" (.rstr "ok")]).map ChatBlock.toolOutput
      = ["", "ok"] ∧
    (ExtractBlocks [cbsToolEv "Bash" "t1", userResultEv "t1" (.rstr "ok")]).map ChatBlock.isError
      = [false, false] := by
  exact ⟨rfl, by decide, by decide, by decide, by decide, by decide⟩

/-! ## C10: block-started announcements discard the announced input -/

/-- C10: opening a tool_use block from a block-started announcement (a bare
`content_block_start` event or one wrapped in a `stream_event`) discards any
input payload carried by the announcement: the newly opened ToolInvocation
block is appended with an empty input field, regardless of the announced
`input`. -/
theorem blockStart_discards_input :
    ∀ (entry : ChatEntry) (ev : Event) (cb : ContentItem),
      ev.parentID = "" → cb.type_ = "tool_use" →
      ((ev.type_ = "content_block_start" → ev.cbsBlock = some cb →
          (parseStreamBlock entry ev).blocks
            = entry.blocks ++ [toolUseBlockT cb.name cb.id "" (cb.name == "Task")]) ∧
       (∀ w, ev.type_ = "stream_event" → ev.seView = some w →
          w.eventType = "content_block_start" → w.block = cb →
          (parseStreamBlock entry ev).blocks
            = entry.blocks ++ [toolUseBlockT cb.name cb.id "" (cb.name == "Task")])) := by
  intro entry ev cb hpid htype
  constructor
  · intro htv hcbs
    simp [parseStreamBlock, hpid, htv, addContentBlock, hcbs, htype]
  · intro w htv hse hwt hwb
    simp [parseStreamBlock, hpid, htv, hse, hwt, hwb, htype]

theorem blockStart_discards_input_witness :
    (parseStreamBlock entry0 (cbsToolEv "Bash" "t1")).blocks
      = [toolUseBlockT "Bash" "t1" "" false] := by
  have h := (blockStart_discards_input entry0 (cbsToolEv "Bash" "t1")
      { type_ := "tool_use", text := "", id := "t1", name := "Bash", input := "\x7b\x7d" }
      rfl rfl).1 rfl rfl
  simpa using h

/-! ## More helper lemmas -/

theorem parseStreamBlock_nonStart_streamEvent (entry : ChatEntry) (ev : Event)
    (hpid : ev.parentID = "") (htv : ev.type_ = "stream_event")
    (hse : ∀ w, ev.seView = some w → w.eventType ≠ "content_block_start") :
    parseStreamBlock entry ev = entry := by
  rcases hw : ev.seView with _ | w
  · simp [parseStreamBlock, hpid, htv, hw]
  · have hne := hse w hw
    simp [parseStreamBlock, hpid, htv, hw, hne]

theorem string_append_empty (x : String) : x ++ "" = x := by
  cases x
  simp [String.instAppend, String.append]

/-! ## C6: input JSON deltas append only to an existing tool-use block -/

/-- C6: an `input_json_delta` fragment is appended only to the last existing
ToolInvocation (tool_use) block; when the registry contains no tool_use
block the fragment is discarded and the registry is left entirely unchanged
(no block is created), and when one exists only that block's input changes
(the `modifyAt` form leaves every other block untouched). -/
theorem inputJsonDelta_only_last_toolUse :
    ∀ (entry : ChatEntry) (ev : Event) (frag : String),
      frag ≠ "" → ev.parentID = "" → ev.type_ = "stream_event" →
      (∀ w, ev.seView = some w → w.eventType ≠ "content_block_start") →
      extractDeltas ev = ⟨"", "", frag⟩ →
      ((lastBlockIndex entry.blocks "tool_use" = none →
          (streamStep entry ev).blocks = entry.blocks) ∧
       (∀ i, lastBlockIndex entry.blocks "tool_use" = some i →
          (streamStep entry ev).blocks
            = modifyAt entry.blocks i (fun b => b.appendToolInput frag))) := by
  intro entry ev frag hfrag hpid htv hse hd
  have hps := parseStreamBlock_nonStart_streamEvent entry ev hpid htv hse
  constructor
  · intro hnone
    simp [streamStep, hps, hd, hfrag, hnone]
  · intro i hsome
    simp [streamStep, hps, hd, hfrag, hsome]

theorem inputJsonDelta_only_last_toolUse_witness :
    (streamStep entry0 (inputDeltaEv "x")).blocks = [] ∧
    (streamStep { blocks := [toolUseBlockT "Bash" "t1" "" false], streamThinking := "", streamText := "" } (inputDeltaEv "x")).blocks
      = [toolUseBlockT "Bash" "t1" "x" false] := by
  have hse : ∀ w, (inputDeltaEv "x").seView = some w → w.eventType ≠ "content_block_start" := by
    intro w hw
    injection hw with hww
    rw [← hww]
    decide
  constructor
  · exact (inputJsonDelta_only_last_toolUse entry0 (inputDeltaEv "x") "x"
      (by decide) rfl rfl hse rfl).1 rfl
  · have h := (inputJsonDelta_only_last_toolUse
      { blocks := [toolUseBlockT "Bash" "t1" "" false], streamThinking := "", streamText := "" }
      (inputDeltaEv "x") "x" (by decide) rfl rfl hse rfl).2 0 rfl
    exact h.trans rfl

/-! ## C5: text deltas append to the last text block; reasoning deltas -/

/-- C5 counterexample: a `thinking_delta` fragment fed to a fresh assembler
creates no block at all — the fragment is routed to the running
`streamThinking` accumulator of the turn, not to a Reasoning block.  This
refutes the claim that a reasoning delta with no existing block of its
variant creates a new block of that variant (the block registry stays
empty). -/
theorem thinkingDelta_creates_no_block :
    (streamStep entry0 (thinkingDeltaEv "think")).blocks = [] ∧
    (streamStep entry0 (thinkingDeltaEv "think")).streamThinking = "think" :=
  ⟨rfl, rfl⟩

/-- C5 amended: a text delta fragment appends to the last existing block of
kind text and, if none exists, a new text block is created (delta-first
arrival is valid); a reasoning (thinking) delta fragment is appended to the
turn's running thinking accumulator and neither creates nor modifies any
block; in particular feeding text deltas "Hel" then "lo" yields exactly one
Text block with content "Hello", and an interleaved thinking delta does not
alter the blocks. -/
theorem textDelta_appends_thinking_accumulates :
    (∀ (entry : ChatEntry) (ev : Event) (s : String),
      s ≠ "" → ev.parentID = "" → ev.type_ = "stream_event" →
      (∀ w, ev.seView = some w → w.eventType ≠ "content_block_start") →
      extractDeltas ev = ⟨s, "", ""⟩ →
      ((lastBlockIndex entry.blocks "text" = none →
          (streamStep entry ev).blocks = entry.blocks ++ [textBlock s]) ∧
       (∀ i, lastBlockIndex entry.blocks "text" = some i →
          (streamStep entry ev).blocks = modifyAt entry.blocks i (fun b => b.appendText s)))) ∧
    (∀ (entry : ChatEntry) (ev : Event) (s : String),
      ev.parentID = "" → ev.type_ = "stream_event" →
      (∀ w, ev.seView = some w → w.eventType ≠ "content_block_start") →
      extractDeltas ev = ⟨"", s, ""⟩ →
      (streamStep entry ev).blocks = entry.blocks ∧
      (streamStep entry ev).streamThinking = entry.streamThinking ++ s) ∧
    incrementalAssemble [textDeltaEv "Hel", thinkingDeltaEv "mmm", textDeltaEv "lo"]
      = [textBlock "Hello"] ∧
    ([textDeltaEv "Hel", thinkingDeltaEv "mmm", textDeltaEv "lo"].foldl streamStep
        entry0).streamThinking = "mmm" := by
  refine ⟨?_, ?_, rfl, rfl⟩
  · intro entry ev s hs hpid htv hse hd
    have hps := parseStreamBlock_nonStart_streamEvent entry ev hpid htv hse
    constructor
    · intro hnone
      simp [streamStep, hps, hd, hs, hnone]
    · intro i hsome
      simp [streamStep, hps, hd, hs, hsome]
  · intro entry ev s hpid htv hse hd
    have hps := parseStreamBlock_nonStart_streamEvent entry ev hpid htv hse
    by_cases hs : s = ""
    · subst hs
      constructor
      · simp [streamStep, hps, hd]
      · simp [streamStep, hps, hd, string_append_empty]
    · constructor
      · simp [streamStep, hps, hd, hs]
      · simp [streamStep, hps, hd, hs]

theorem textDelta_appends_witness :
    (streamStep entry0 (textDeltaEv "He")).blocks = [textBlock "He"] ∧
    (streamStep entry0 (thinkingDeltaEv "mm")).blocks = [] := by
  have hse1 : ∀ w, (textDeltaEv "He").seView = some w → w.eventType ≠ "content_block_start" := by
    intro w hw
    injection hw with hww
    rw [← hww]
    decide
  have hse2 : ∀ w, (thinkingDeltaEv "mm").seView = some w → w.eventType ≠ "content_block_start" := by
    intro w hw
    injection hw with hww
    rw [← hww]
    decide
  constructor
  · have h := (textDelta_appends_thinking_accumulates.1 entry0 (textDeltaEv "He") "He"
      (by decide) rfl rfl hse1 rfl).1 rfl
    exact h.trans rfl
  · exact (textDelta_appends_thinking_accumulates.2.1 entry0 (thinkingDeltaEv "mm") "mm"
      rfl rfl hse2 rfl).1

/-! ## C3: routing an event with an unknown delegation id -/

/-- C3 counterexample: a stream-wrapped text delta whose line carries
`parent_tool_use_id: "ghost"` while no delegation with that id exists does
not leave the block registry unchanged — the routing function drops the
event, but the delta application of `ChatModel.Update` still appends the
extracted text fragment to the top-level registry, creating a text block. -/
theorem unknownRouting_counterexample :
    ghostDeltaEv.parentID = "ghost" ∧
    findTaskBlockIndex entry0.blocks ghostDeltaEv.parentID = none ∧
    (streamStep entry0 ghostDeltaEv).blocks = [textBlock "hi"] ∧
    (streamStep entry0 ghostDeltaEv).blocks ≠ entry0.blocks := by
  refine ⟨rfl, rfl, rfl, ?_⟩
  intro h
  exact absurd (congrArg List.length h) (by decide)

/-- C3 amended: for every assembler state and every event carrying a
`parent_tool_use_id` that matches no existing delegation (Task) block, and
which carries no content-block-delta fragment, the assembler step leaves
the entry (in particular the block registry) completely unchanged and
raises no error (the step is a total function). -/
theorem unknownRouting_noop :
    ∀ (entry : ChatEntry) (ev : Event),
      ev.parentID ≠ "" → findTaskBlockIndex entry.blocks ev.parentID = none →
      extractDeltas ev = emptyDeltas →
      streamStep entry ev = entry := by
  intro entry ev hpid hfind hd
  have hps : parseStreamBlock entry ev = entry := by
    simp [parseStreamBlock, hpid, hfind]
  simp [streamStep, hps, hd, emptyDeltas]

theorem unknownRouting_noop_witness :
    streamStep entry0 ghostUserEv = entry0 :=
  unknownRouting_noop entry0 ghostUserEv (by decide) rfl rfl

/-! ## C1: batch extraction versus incremental assembly -/

theorem extractToolResultContentM_false (c : RContent) :
    extractToolResultContentM c false = extractToolResultContent c := by
  cases c <;> rfl

theorem findTaskBlockIndexAux_none (id : String) :
    ∀ (bs : List ChatBlock) (i : Nat), (∀ b ∈ bs, b.kind = "tool_result") →
      findTaskBlockIndexAux id bs i = none := by
  intro bs
  induction bs with
  | nil => intro i h; rfl
  | cons b rest ih =>
    intro i h
    have hb := h b (by simp)
    have hcond : ¬ (b.kind = "tool_use" ∧ b.isTask = true ∧ b.toolID = id) := by
      rintro ⟨hk, _, _⟩
      rw [hb] at hk
      exact absurd hk (by decide)
    simp only [findTaskBlockIndexAux, if_neg hcond]
    exact ih (i + 1) (fun b2 hb2 => h b2 (List.mem_cons_of_mem _ hb2))

theorem findTaskBlockIndex_none (bs : List ChatBlock) (id : String)
    (h : ∀ b ∈ bs, b.kind = "tool_result") : findTaskBlockIndex bs id = none :=
  findTaskBlockIndexAux_none id bs 0 h

theorem batchUserSub_fold_id (pid : String) :
    ∀ (items : List UserItem) (bs : List ChatBlock),
      (∀ b ∈ bs, b.kind = "tool_result") →
      items.foldl (batchUserSub pid) bs = bs := by
  intro items
  induction items with
  | nil => intro bs h; rfl
  | cons item rest ih =>
    intro bs h
    have hstep : batchUserSub pid bs item = bs := by
      by_cases ht : item.type_ = "tool_result"
      · simp [batchUserSub, ht, findTaskBlockIndex_none bs pid h]
      · simp [batchUserSub, ht]
    rw [List.foldl_cons, hstep]
    exact ih bs h

theorem batchAsstSub_fold_id (pid : String) :
    ∀ (items : List ContentItem) (bs : List ChatBlock),
      (∀ b ∈ bs, b.kind = "tool_result") →
      items.foldl (batchAsstSub pid) bs = bs := by
  intro items
  induction items with
  | nil => intro bs h; rfl
  | cons item rest ih =>
    intro bs h
    have hstep : batchAsstSub pid bs item = bs := by
      by_cases ht : item.type_ = "tool_use"
      · simp [batchAsstSub, ht, findTaskBlockIndex_none bs pid h]
      · simp [batchAsstSub, ht]
    rw [List.foldl_cons, hstep]
    exact ih bs h

theorem batchUserTop_eq_incrUserTop (tur : Option TaskResultMeta) :
    ∀ (items : List UserItem) (bs : List ChatBlock),
      (∀ b ∈ bs, b.kind = "tool_result") →
      items.foldl (batchUserTop tur) bs = items.foldl (incrUserTop tur) bs ∧
      (∀ b ∈ items.foldl (batchUserTop tur) bs, b.kind = "tool_result") := by
  intro items
  induction items with
  | nil => intro bs h; exact ⟨rfl, h⟩
  | cons item rest ih =>
    intro bs h
    rw [List.foldl_cons, List.foldl_cons]
    by_cases ht : item.type_ = "tool_result"
    · have hfind := findTaskBlockIndex_none bs item.toolUseID h
      have hb : batchUserTop tur bs item
          = bs ++ [toolResultBlock item.toolUseID
              (extractToolResultContent item.content) item.isError] := by
        simp [batchUserTop, ht, hfind, extractToolResultContentM_false]
      have hi : incrUserTop tur bs item
          = bs ++ [toolResultBlock item.toolUseID
              (extractToolResultContent item.content) item.isError] := by
        simp [incrUserTop, ht, hfind]
      have hinv : ∀ b ∈ bs ++ [toolResultBlock item.toolUseID
          (extractToolResultContent item.content) item.isError], b.kind = "tool_result" := by
        intro b hbmem
        rcases List.mem_append.mp hbmem with hm | hm
        · exact h b hm
        · simp at hm
          subst hm
          rfl
      rw [hb, hi]
      exact ih _ hinv
    · have hb : batchUserTop tur bs item = bs := by simp [batchUserTop, ht]
      have hi : incrUserTop tur bs item = bs := by simp [incrUserTop, ht]
      rw [hb, hi]
      exact ih bs h

theorem streamStep_noDelta (entry : ChatEntry) (ev : Event)
    (hd : extractDeltas ev = emptyDeltas) :
    streamStep entry ev = parseStreamBlock entry ev := by
  simp [streamStep, hd, emptyDeltas]

theorem batchStep_matches (ev : Event) (h1 : ev.type_ ≠ "assistant")
    (h2 : ev.type_ ≠ "content_block_start") (h3 : ev.type_ ≠ "stream_event")
    (hd : extractDeltas ev = emptyDeltas) (bs : List ChatBlock) (th tx : String)
    (hinv : ∀ b ∈ bs, b.kind = "tool_result") :
    batchStep bs ev = (streamStep ⟨bs, th, tx⟩ ev).blocks ∧
    (∀ b ∈ batchStep bs ev, b.kind = "tool_result") := by
  rw [streamStep_noDelta _ _ hd]
  by_cases hu : ev.type_ = "user"
  · by_cases hp : ev.parentID = ""
    · rcases huc : ev.userContent with _ | items
      · have hb : batchStep bs ev = bs := by simp [batchStep, h1, h2, hu, huc]
        have hpsb : (parseStreamBlock ⟨bs, th, tx⟩ ev).blocks = bs := by
          simp [parseStreamBlock, hp, h2, h3, hu, huc]
        rw [hb, hpsb]
        exact ⟨rfl, hinv⟩
      · have heq := batchUserTop_eq_incrUserTop ev.toolUseResult items bs hinv
        have hb : batchStep bs ev = items.foldl (batchUserTop ev.toolUseResult) bs := by
          simp [batchStep, h1, h2, hu, huc, hp]
        have hpsb : (parseStreamBlock ⟨bs, th, tx⟩ ev).blocks
            = items.foldl (incrUserTop ev.toolUseResult) bs := by
          simp [parseStreamBlock, hp, h2, h3, hu, huc]
        rw [hb, hpsb]
        exact ⟨heq.1, heq.2⟩
    · have hfind := findTaskBlockIndex_none bs ev.parentID hinv
      have hpsb : (parseStreamBlock ⟨bs, th, tx⟩ ev).blocks = bs := by
        simp [parseStreamBlock, hp, hfind]
      rcases huc : ev.userContent with _ | items
      · have hb : batchStep bs ev = bs := by simp [batchStep, h1, h2, hu, huc]
        rw [hb, hpsb]
        exact ⟨rfl, hinv⟩
      · have hb : batchStep bs ev = bs := by
          simp [batchStep, h1, h2, hu, huc, hp, batchUserSub_fold_id ev.parentID items bs hinv]
        rw [hb, hpsb]
        exact ⟨rfl, hinv⟩
  · have hb : batchStep bs ev = bs := by simp [batchStep, h1, h2, hu]
    by_cases hp : ev.parentID = ""
    · have hpsb : (parseStreamBlock ⟨bs, th, tx⟩ ev).blocks = bs := by
        simp [parseStreamBlock, hp, h2, h3, hu]
      rw [hb, hpsb]
      exact ⟨rfl, hinv⟩
    · have hfind := findTaskBlockIndex_none bs ev.parentID hinv
      have hpsb : (parseStreamBlock ⟨bs, th, tx⟩ ev).blocks = bs := by
        simp [parseStreamBlock, hp, hfind]
      rw [hb, hpsb]
      exact ⟨rfl, hinv⟩

theorem c1_aux :
    ∀ (events : List Event),
      (∀ ev ∈ events, ev.type_ ≠ "assistant" ∧ ev.type_ ≠ "content_block_start" ∧
        ev.type_ ≠ "stream_event" ∧ extractDeltas ev = emptyDeltas) →
      ∀ (entry : ChatEntry), (∀ b ∈ entry.blocks, b.kind = "tool_result") →
        events.foldl batchStep entry.blocks = (events.foldl streamStep entry).blocks ∧
        (∀ b ∈ events.foldl batchStep entry.blocks, b.kind = "tool_result") := by
  intro events
  induction events with
  | nil => intro _ entry hinv; exact ⟨rfl, hinv⟩
  | cons ev rest ih =>
    intro h entry hinv
    have hev := h ev (by simp)
    have hstep := batchStep_matches ev hev.1 hev.2.1 hev.2.2.1 hev.2.2.2
      entry.blocks entry.streamThinking entry.streamText hinv
    have heta : (⟨entry.blocks, entry.streamThinking, entry.streamText⟩ : ChatEntry) = entry := rfl
    rw [heta] at hstep
    rw [List.foldl_cons, List.foldl_cons, hstep.1]
    exact ih (fun e he => h e (List.mem_cons_of_mem _ he)) (streamStep entry ev)
      (by rw [← hstep.1]; exact hstep.2)

theorem finalizeBlock_id_of_result (b : ChatBlock) (h : b.kind = "tool_result") :
    finalizeBlock b = b := by
  have hcond : ¬ (b.kind = "tool_use" ∧ b.toolInput ≠ "") := by
    rintro ⟨hk, _⟩
    rw [h] at hk
    exact absurd hk (by decide)
  simp [finalizeBlock, hcond]

theorem finalizeBlocks_id_of_results :
    ∀ (bs : List ChatBlock), (∀ b ∈ bs, b.kind = "tool_result") →
      finalizeBlocks bs = bs := by
  intro bs
  induction bs with
  | nil => intro _; rfl
  | cons b rest ih =>
    intro h
    have h1 := finalizeBlock_id_of_result b (h b (by simp))
    have h2 := ih (fun x hx => h x (List.mem_cons_of_mem _ hx))
    simp only [finalizeBlocks, List.map_cons, h1]
    simp only [finalizeBlocks] at h2
    rw [h2]

/-- C1 counterexample: the batch extractor and the incremental assembler
disagree on the one-event sequence consisting of a complete top-level
assistant message with text "hi": the batch pass emits a Text block while
the incremental assembler (which builds text only from block-started events
and deltas, ignoring top-level assistant events) produces no block. -/
theorem batch_vs_incremental_counterexample :
    ExtractBlocks [asstTextEv "hi"] = [textBlock "hi"] ∧
    incrementalAssemble [asstTextEv "hi"] = [] ∧
    ExtractBlocks [asstTextEv "hi"] ≠ incrementalAssemble [asstTextEv "hi"] := by
  refine ⟨rfl, rfl, ?_⟩
  intro h
  exact absurd (congrArg List.length h) (by decide)

/-- C1 amended: the batch extractor agrees with feeding the events
one-by-one into a fresh incremental assembler and finalizing, for every
event sequence in which no event is an assistant, content_block_start or
stream_event message and no event carries a content-block-delta fragment
(in particular for sequences of user tool-result events, the only
block-affecting events the two paths handle identically). -/
theorem batch_eq_incremental_on_userOnly_events (events : List Event)
    (h : ∀ ev ∈ events, ev.type_ ≠ "assistant" ∧ ev.type_ ≠ "content_block_start" ∧
      ev.type_ ≠ "stream_event" ∧ extractDeltas ev = emptyDeltas) :
    ExtractBlocks events = incrementalAssemble events := by
  have haux := c1_aux events h entry0 (by intro b hb; cases hb)
  unfold ExtractBlocks incrementalAssemble
  rw [finalizeBlocks_id_of_results _ (by rw [← haux.1]; exact haux.2)]
  exact haux.1

theorem batch_eq_incremental_witness :
    ExtractBlocks [userResultEv "t1" (.rstr "ok"), ghostUserEv]
      = incrementalAssemble [userResultEv "t1" (.rstr "ok"), ghostUserEv] := by
  apply batch_eq_incremental_on_userOnly_events
  intro ev hev
  simp only [List.mem_cons, List.mem_singleton, List.not_mem_nil, or_false] at hev
  rcases hev with rfl | rfl
  · exact ⟨by decide, by decide, by decide, rfl⟩
  · exact ⟨by decide, by decide, by decide, rfl⟩

/-! ## C8: idempotence of finalization.

The nontrivial ingredient is idempotence of the modelled `json.Indent`:
re-scanning its own output yields the same token stream and trailing
whitespace, so a second indent reproduces the same text byte for byte.
The lemmas below establish that the scanner only emits well-formed tokens,
and that the emitted text of a grammatically valid stream of well-formed
tokens rescans to exactly that stream. -/

theorem stepsTok_append (xs : List Char) :
    ∀ (st : TokSt) (ys : List Char),
      stepsTok st (xs ++ ys)
        = match stepsTok st xs with
          | some st2 => stepsTok st2 ys
          | none => none := by
  induction xs with
  | nil => intro st ys; simp [stepsTok]
  | cons c cs ih =>
    intro st ys
    simp only [List.cons_append, stepsTok]
    cases stepTok st c with
    | none => rfl
    | some st2 => exact ih st2 ys

theorem stepsTok_append_some (xs ys : List Char) (st st2 : TokSt)
    (h : stepsTok st xs = some st2) :
    stepsTok st (xs ++ ys) = stepsTok st2 ys := by
  rw [stepsTok_append, h]

theorem stepsTok_cons_some (st st2 : TokSt) (c : Char) (cs : List Char)
    (h : stepTok st c = some st2) : stepsTok st (c :: cs) = stepsTok st2 cs := by
  simp only [stepsTok, h]

theorem replicate_space_all_ws (n : Nat) : (List.replicate n ' ').all isWSChar = true := by
  simp only [List.all_eq_true]
  intro x hx
  rw [List.eq_of_mem_replicate hx]
  rfl

theorem strRun_append (xs : List Char) :
    ∀ (m : StrMode) (ys : List Char),
      strRun m (xs ++ ys)
        = match strRun m xs with
          | some m2 => strRun m2 ys
          | none => none := by
  induction xs with
  | nil => intro m ys; simp [strRun]
  | cons c cs ih =>
    intro m ys
    cases m with
    | normal =>
      by_cases h1 : c == '"'
      · simp [strRun, h1]
      · by_cases h2 : c == '\\'
        · simp [strRun, h1, h2, ih]
        · by_cases h3 : c.toNat < 32
          · simp [strRun, h1, h2, h3]
          · simp [strRun, h1, h2, h3, ih]
    | escaped =>
      by_cases h1 : c == 'u'
      · simp [strRun, h1, ih]
      · by_cases h2 : isEscapeChar c
        · simp [strRun, h1, h2, ih]
        · simp [strRun, h1, h2]
    | hex n =>
      by_cases h1 : isHexChar c
      · by_cases h2 : n ≤ 1
        · simp [strRun, h1, h2, ih]
        · simp [strRun, h1, h2, ih]
      · simp [strRun, h1]

theorem stepsTok_ws (l : List Char) :
    ∀ (R : List JTok) (ws : List Char), l.all isWSChar = true →
      stepsTok ⟨.top, R, ws⟩ l = some ⟨.top, R, l.reverse ++ ws⟩ := by
  induction l with
  | nil => intro R ws _; simp [stepsTok]
  | cons c cs ih =>
    intro R ws h
    simp only [List.all_cons, Bool.and_eq_true] at h
    simp only [stepsTok, stepTok, h.1, if_pos]
    rw [ih R (c :: ws) h.2]
    simp

theorem stepsTok_inStr (rem : List Char) :
    ∀ (m m2 : StrMode) (acc : List Char) (R : List JTok) (ws : List Char),
      strRun m rem = some m2 →
      stepsTok ⟨.inStr acc m, R, ws⟩ rem = some ⟨.inStr (rem.reverse ++ acc) m2, R, ws⟩ := by
  induction rem with
  | nil =>
    intro m m2 acc R ws h
    simp only [strRun] at h
    injection h with h
    subst h
    simp [stepsTok]
  | cons c cs ih =>
    intro m m2 acc R ws h
    cases m with
    | normal =>
      by_cases h1 : c == '"'
      · simp [strRun, h1] at h
      · by_cases h2 : c == '\\'
        · simp only [strRun, h1, h2, if_neg, if_pos, Bool.false_eq_true, if_false] at h
          have hc : c = '\\' := by simpa using h2
          simp only [stepsTok, stepTok, h1, h2, Bool.false_eq_true, if_false, if_pos]
          rw [ih .escaped m2 (c :: acc) R ws h]
          simp [hc]
        · by_cases h3 : c.toNat < 32
          · simp [strRun, h1, h2, h3] at h
          · simp only [strRun, h1, h2, h3, Bool.false_eq_true, if_false] at h
            simp only [stepsTok, stepTok, h1, h2, h3, Bool.false_eq_true, if_false]
            rw [ih .normal m2 (c :: acc) R ws h]
            simp
    | escaped =>
      by_cases h1 : c == 'u'
      · simp only [strRun, h1, if_pos] at h
        simp only [stepsTok, stepTok, h1, if_pos]
        rw [ih (.hex 4) m2 (c :: acc) R ws h]
        simp
      · by_cases h2 : isEscapeChar c
        · simp only [strRun, h1, h2, Bool.false_eq_true, if_false, if_pos] at h
          simp only [stepsTok, stepTok, h1, h2, Bool.false_eq_true, if_false, if_pos]
          rw [ih .normal m2 (c :: acc) R ws h]
          simp
        · simp [strRun, h1, h2] at h
    | hex n =>
      by_cases h1 : isHexChar c
      · by_cases h2 : n ≤ 1
        · simp only [strRun, h1, h2, if_pos] at h
          simp only [stepsTok, stepTok, h1, h2, if_pos]
          rw [ih .normal m2 (c :: acc) R ws h]
          simp
        · simp only [strRun, h1, h2, if_pos, if_neg, if_false] at h
          simp only [stepsTok, stepTok, h1, h2, if_pos, if_neg, if_false]
          rw [ih (.hex (n - 1)) m2 (c :: acc) R ws h]
          simp
      · simp [strRun, h1] at h

theorem wfTok_structTok (c : Char) : wfTok (structTok c) := by
  unfold structTok
  split_ifs <;> trivial

theorem head?_append_single {α : Type} (l : List α) (x : α) (hl : l ≠ []) :
    (l ++ [x]).head? = l.head? := by
  cases l with
  | nil => exact absurd rfl hl
  | cons a as => simp

theorem strRun_push (acc : List Char) (m m2 : StrMode) (c : Char)
    (h : strRun .normal acc.reverse = some m) (hc : strRun m [c] = some m2) :
    strRun .normal ((c :: acc).reverse) = some m2 := by
  rw [List.reverse_cons, strRun_append]
  rw [h]
  exact hc

theorem stepTok_inv (st : TokSt) (c : Char) (st2 : TokSt)
    (hinv : stInv st) (h : stepTok st c = some st2) : stInv st2 := by
  obtain ⟨mode, toks, ws⟩ := st
  obtain ⟨htoks, hws, hstr, hprim⟩ := hinv
  cases mode with
  | top =>
    simp only [stepTok] at h
    by_cases h1 : isWSChar c
    · rw [if_pos h1] at h
      injection h with h
      subst h
      refine ⟨htoks, ?_, ?_, ?_⟩
      · simp only [List.all_cons, Bool.and_eq_true]
        exact ⟨h1, hws⟩
      · intro acc m hm; cases hm
      · intro acc hm; cases hm
    · rw [if_neg h1] at h
      by_cases h2 : c == '"'
      · rw [if_pos h2] at h
        injection h with h
        subst h
        refine ⟨htoks, rfl, ?_, ?_⟩
        · intro acc m hm
          injection hm with ha hm2
          subst ha
          subst hm2
          rfl
        · intro acc hm; cases hm
      · rw [if_neg h2] at h
        by_cases h3 : isStructuralChar c
        · rw [if_pos h3] at h
          injection h with h
          subst h
          refine ⟨?_, rfl, ?_, ?_⟩
          · intro t ht
            rcases List.mem_cons.mp ht with rfl | ht2
            · exact wfTok_structTok c
            · exact htoks t ht2
          · intro acc m hm; cases hm
          · intro acc hm; cases hm
        · rw [if_neg h3] at h
          injection h with h
          subst h
          refine ⟨htoks, rfl, ?_, ?_⟩
          · intro acc m hm; cases hm
          · intro acc hm
            injection hm with hm
            subst hm
            refine ⟨by simp, ?_, ?_⟩
            · intro x hx
              simp only [List.reverse_cons, List.reverse_nil, List.nil_append,
                List.head?_cons] at hx
              injection hx with hx
              subst hx
              simpa using h2
            · intro x hx
              simp only [List.mem_singleton] at hx
              subst hx
              simp only [plainChar, Bool.and_eq_true, Bool.not_eq_true']
              exact ⟨by simpa using h1, by simpa using h3⟩
  | inPrim acc =>
    obtain ⟨hane, hahead, haplain⟩ := hprim acc rfl
    have hwfprim : validPrim acc.reverse = true → wfTok (.prim acc.reverse) := by
      intro hv
      refine ⟨by simpa using hane, hahead, ?_, hv⟩
      intro x hx
      exact haplain x (List.mem_reverse.mp hx)
    simp only [stepTok] at h
    by_cases h1 : isWSChar c
    · rw [if_pos h1] at h
      by_cases hv : validPrim acc.reverse
      · rw [if_pos hv] at h
        injection h with h
        subst h
        refine ⟨?_, ?_, ?_, ?_⟩
        · intro t ht
          rcases List.mem_cons.mp ht with rfl | ht2
          · exact hwfprim hv
          · exact htoks t ht2
        · simp only [List.all_cons, List.all_nil, Bool.and_eq_true]
          exact ⟨h1, trivial⟩
        · intro a m hm; cases hm
        · intro a hm; cases hm
      · rw [if_neg hv] at h
        cases h
    · rw [if_neg h1] at h
      by_cases h3 : isStructuralChar c
      · rw [if_pos h3] at h
        by_cases hv : validPrim acc.reverse
        · rw [if_pos hv] at h
          injection h with h
          subst h
          refine ⟨?_, rfl, ?_, ?_⟩
          · intro t ht
            rcases List.mem_cons.mp ht with rfl | ht2
            · exact wfTok_structTok c
            · rcases List.mem_cons.mp ht2 with rfl | ht3
              · exact hwfprim hv
              · exact htoks t ht3
          · intro a m hm; cases hm
          · intro a hm; cases hm
        · rw [if_neg hv] at h
          cases h
      · rw [if_neg h3] at h
        injection h with h
        subst h
        refine ⟨htoks, hws, ?_, ?_⟩
        · intro a m hm; cases hm
        · intro a hm
          injection hm with hm
          subst hm
          refine ⟨by simp, ?_, ?_⟩
          · intro x hx
            rw [List.reverse_cons, head?_append_single _ _ (by simpa using hane)] at hx
            exact hahead x hx
          · intro x hx
            rcases List.mem_cons.mp hx with rfl | hx2
            · simp only [plainChar, Bool.and_eq_true, Bool.not_eq_true']
              exact ⟨by simpa using h1, by simpa using h3⟩
            · exact haplain x hx2
  | inStr acc m =>
    have hrun := hstr acc m rfl
    cases m with
    | normal =>
      simp only [stepTok] at h
      by_cases h1 : c == '"'
      · rw [if_pos h1] at h
        injection h with h
        subst h
        refine ⟨?_, rfl, ?_, ?_⟩
        · intro t ht
          rcases List.mem_cons.mp ht with rfl | ht2
          · exact hrun
          · exact htoks t ht2
        · intro a m2 hm; cases hm
        · intro a hm; cases hm
      · rw [if_neg h1] at h
        by_cases h2 : c == '\\'
        · rw [if_pos h2] at h
          injection h with h
          subst h
          refine ⟨htoks, hws, ?_, ?_⟩
          · intro a m2 hm
            injection hm with ha hm2
            subst ha
            subst hm2
            refine strRun_push acc _ _ c hrun ?_
            have hc : c = '\\' := by simpa using h2
            simp [strRun, hc]
          · intro a hm; cases hm
        · rw [if_neg h2] at h
          by_cases h3 : c.toNat < 32
          · rw [if_pos h3] at h
            cases h
          · rw [if_neg h3] at h
            injection h with h
            subst h
            refine ⟨htoks, hws, ?_, ?_⟩
            · intro a m2 hm
              injection hm with ha hm2
              subst ha
              subst hm2
              refine strRun_push acc _ _ c hrun ?_
              simp [strRun, h1, h2, h3]
            · intro a hm; cases hm
    | escaped =>
      simp only [stepTok] at h
      by_cases h1 : c == 'u'
      · rw [if_pos h1] at h
        injection h with h
        subst h
        refine ⟨htoks, hws, ?_, ?_⟩
        · intro a m2 hm
          injection hm with ha hm2
          subst ha
          subst hm2
          refine strRun_push acc _ _ c hrun ?_
          simp [strRun, h1]
        · intro a hm; cases hm
      · rw [if_neg h1] at h
        by_cases h2 : isEscapeChar c
        · rw [if_pos h2] at h
          injection h with h
          subst h
          refine ⟨htoks, hws, ?_, ?_⟩
          · intro a m2 hm
            injection hm with ha hm2
            subst ha
            subst hm2
            refine strRun_push acc _ _ c hrun ?_
            simp [strRun, h1, h2]
          · intro a hm; cases hm
        · rw [if_neg h2] at h
          cases h
    | hex n =>
      simp only [stepTok] at h
      by_cases h1 : isHexChar c
      · rw [if_pos h1] at h
        by_cases h2 : n ≤ 1
        · rw [if_pos h2] at h
          injection h with h
          subst h
          refine ⟨htoks, hws, ?_, ?_⟩
          · intro a m2 hm
            injection hm with ha hm2
            subst ha
            subst hm2
            refine strRun_push acc _ _ c hrun ?_
            simp [strRun, h1, h2]
          · intro a hm; cases hm
        · rw [if_neg h2] at h
          injection h with h
          subst h
          refine ⟨htoks, hws, ?_, ?_⟩
          · intro a m2 hm
            injection hm with ha hm2
            subst ha
            subst hm2
            refine strRun_push acc _ _ c hrun ?_
            simp [strRun, h1, h2]
          · intro a hm; cases hm
      · rw [if_neg h1] at h
        cases h

theorem stepsTok_inPrim (rest : List Char) :
    ∀ (acc : List Char) (R : List JTok) (ws : List Char),
      (∀ c ∈ rest, plainChar c = true) →
      stepsTok ⟨.inPrim acc, R, ws⟩ rest = some ⟨.inPrim (rest.reverse ++ acc), R, ws⟩ := by
  induction rest with
  | nil => intro acc R ws _; simp [stepsTok]
  | cons c cs ih =>
    intro acc R ws h
    have hc := h c (by simp)
    simp only [plainChar, Bool.and_eq_true, Bool.not_eq_true'] at hc
    simp only [stepsTok, stepTok, hc.1, hc.2, Bool.false_eq_true, if_false]
    rw [ih (c :: acc) R ws (fun x hx => h x (List.mem_cons_of_mem _ hx))]
    simp

theorem stepsTok_inv (l : List Char) :
    ∀ (st st2 : TokSt), stInv st → stepsTok st l = some st2 → stInv st2 := by
  induction l with
  | nil =>
    intro st st2 h hs
    simp only [stepsTok] at hs
    injection hs with hs
    subst hs
    exact h
  | cons c cs ih =>
    intro st st2 h hs
    simp only [stepsTok] at hs
    cases hst : stepTok st c with
    | none => rw [hst] at hs; cases hs
    | some stm =>
      rw [hst] at hs
      exact ih stm st2 (stepTok_inv st c stm h hst) hs

theorem stInv_tokSt0 : stInv tokSt0 := by
  refine ⟨?_, rfl, ?_, ?_⟩
  · intro t ht; cases ht
  · intro acc m hm; cases hm
  · intro acc hm; cases hm

theorem tokenize_wf (l : List Char) (ts : List JTok) (trail : List Char)
    (h : tokenize l = some (ts, trail)) :
    (∀ t ∈ ts, wfTok t) ∧ trail.all isWSChar = true := by
  unfold tokenize at h
  cases hs : stepsTok tokSt0 l with
  | none => rw [hs] at h; cases h
  | some st =>
    rw [hs] at h
    have hinv := stepsTok_inv l tokSt0 st stInv_tokSt0 hs
    obtain ⟨mode, toks, ws⟩ := st
    obtain ⟨htoks, hws, hstr, hprim⟩ := hinv
    cases mode with
    | top =>
      simp only [finishTok] at h
      injection h with h
      rw [Prod.mk.injEq] at h
      obtain ⟨h1, h2⟩ := h
      subst h1
      subst h2
      constructor
      · intro t ht
        exact htoks t (List.mem_reverse.mp ht)
      · rw [List.all_reverse]
        exact hws
    | inPrim acc =>
      obtain ⟨hane, hahead, haplain⟩ := hprim acc rfl
      simp only [finishTok] at h
      by_cases hv : validPrim acc.reverse
      · rw [if_pos hv] at h
        injection h with h
        rw [Prod.mk.injEq] at h
        obtain ⟨h1, h2⟩ := h
        subst h1
        subst h2
        constructor
        · intro t ht
          rcases List.mem_reverse.mp ht with hm
          rcases List.mem_cons.mp hm with rfl | hm2
          · exact ⟨by simpa using hane, hahead,
              fun x hx => haplain x (List.mem_reverse.mp hx), hv⟩
          · exact htoks t hm2
        · rfl
      · rw [if_neg hv] at h
        cases h
    | inStr acc m =>
      simp only [finishTok] at h
      cases h

/-! ### Grammar facts used by the re-scan argument. -/

theorem afterValueMode_cases (stack : List GFrame) :
    afterValueMode stack = .done ∨ afterValueMode stack = .commaOrEndObj ∨
      afterValueMode stack = .commaOrEndArr := by
  cases stack with
  | nil => exact Or.inl rfl
  | cons f rest =>
    cases f with
    | fObj => exact Or.inr (Or.inl rfl)
    | fArr => exact Or.inr (Or.inr rfl)

theorem gStep_prim_after (g g2 : GSt) (p : List Char)
    (h : gStep g (.prim p) = some g2) :
    g2.mode = .done ∨ g2.mode = .commaOrEndObj ∨ g2.mode = .commaOrEndArr := by
  obtain ⟨stack, mode⟩ := g
  cases mode with
  | value =>
    simp only [gStep, startValue] at h
    injection h with h
    subst h
    exact afterValueMode_cases stack
  | valueOrEnd =>
    simp only [gStep, startValue] at h
    injection h with h
    subst h
    exact afterValueMode_cases stack
  | keyOrEnd => cases h
  | keyRequired => cases h
  | colonExpected => cases h
  | commaOrEndObj => cases h
  | commaOrEndArr => cases h
  | done => cases h

theorem gStep_done_none (g : GSt) (t : JTok) (h : g.mode = .done) :
    gStep g t = none := by
  obtain ⟨stack, mode⟩ := g
  simp only at h
  subst h
  cases t <;> rfl

theorem gStep_afterValue_tok (g g2 : GSt) (t : JTok)
    (hm : g.mode = .commaOrEndObj ∨ g.mode = .commaOrEndArr)
    (h : gStep g t = some g2) :
    t = .comma ∨ t = .rbrace ∨ t = .rbrack := by
  obtain ⟨stack, mode⟩ := g
  simp only at hm
  rcases hm with hm | hm <;> subst hm <;> cases t
  case comma => exact Or.inl rfl
  case rbrace => exact Or.inr (Or.inl rfl)
  case rbrack => exact Or.inr (Or.inr rfl)
  case comma => exact Or.inl rfl
  case rbrace => exact Or.inr (Or.inl rfl)
  case rbrack => exact Or.inr (Or.inr rfl)
  all_goals cases h

theorem gStep_comma_after (g g2 : GSt) (h : gStep g .comma = some g2) :
    g2.mode = .value ∨ g2.mode = .keyRequired := by
  obtain ⟨stack, mode⟩ := g
  cases mode with
  | commaOrEndObj =>
    simp only [gStep] at h
    injection h with h
    subst h
    exact Or.inr rfl
  | commaOrEndArr =>
    simp only [gStep] at h
    injection h with h
    subst h
    exact Or.inl rfl
  | value => cases h
  | valueOrEnd => cases h
  | keyOrEnd => cases h
  | keyRequired => cases h
  | colonExpected => cases h
  | done => cases h

theorem gStep_colon_after (g g2 : GSt) (h : gStep g .colon = some g2) :
    g2.mode = .value := by
  obtain ⟨stack, mode⟩ := g
  cases mode with
  | colonExpected =>
    simp only [gStep] at h
    injection h with h
    subst h
    rfl
  | value => cases h
  | valueOrEnd => cases h
  | keyOrEnd => cases h
  | keyRequired => cases h
  | commaOrEndObj => cases h
  | commaOrEndArr => cases h
  | done => cases h

/-! ### Chunk lemmas: processing one token's emitted text through the
scanner. -/

theorem nlIndent_all_ws (d : Nat) : (nlIndent d).all isWSChar = true := by
  simp only [nlIndent, List.all_cons, Bool.and_eq_true]
  refine ⟨rfl, ?_⟩
  simp only [List.all_eq_true]
  intro x hx
  rw [List.eq_of_mem_replicate hx]
  rfl

theorem wsResidue_all_ws (e : EmitSt) (t : JTok) :
    (wsResidue e t).all isWSChar = true := by
  cases t with
  | comma =>
    rw [wsResidue, List.all_reverse]
    exact nlIndent_all_ws _
  | colon => rfl
  | lbrace => rfl
  | rbrace => rfl
  | lbrack => rfl
  | rbrack => rfl
  | str b => rfl
  | prim p => rfl

theorem stepsTok_strChunk (b : List Char) (R : List JTok) (ws : List Char)
    (hb : strRun .normal b = some .normal) :
    stepsTok ⟨.top, R, ws⟩ ('"' :: (b ++ ['"'])) = some ⟨.top, .str b :: R, []⟩ := by
  have h0 : stepsTok ⟨.top, R, ws⟩ ('"' :: (b ++ ['"']))
      = stepsTok ⟨.inStr [] .normal, R, []⟩ (b ++ ['"']) := rfl
  rw [h0, stepsTok_append, stepsTok_inStr b .normal .normal [] R [] hb]
  simp [stepsTok, stepTok]

theorem stepsTok_primChunk (p : List Char) (R : List JTok) (ws : List Char)
    (hwf : wfTok (.prim p)) :
    stepsTok ⟨.top, R, ws⟩ p = some ⟨.inPrim p.reverse, R, []⟩ := by
  obtain ⟨hne, hhead, hplain, _⟩ := hwf
  cases p with
  | nil => exact absurd rfl hne
  | cons c cs =>
    have hc := hplain c (by simp)
    have hcq : (c == '"') = false := by
      have := hhead c (by simp)
      simpa using this
    simp only [plainChar, Bool.and_eq_true, Bool.not_eq_true'] at hc
    simp only [stepsTok, stepTok, hc.1, hc.2, hcq, Bool.false_eq_true, if_false]
    rw [stepsTok_inPrim cs [c] R []
      (fun x hx => hplain x (List.mem_cons_of_mem _ hx))]
    simp

theorem stepTok_prim_structural (acc : List Char) (R : List JTok) (ws : List Char) (c : Char)
    (hws : isWSChar c = false) (hst : isStructuralChar c = true)
    (hv : validPrim acc.reverse = true) :
    stepTok ⟨.inPrim acc, R, ws⟩ c = some ⟨.top, structTok c :: .prim acc.reverse :: R, []⟩ := by
  simp [stepTok, hws, hst, hv]

theorem stepTok_prim_ws (acc : List Char) (R : List JTok) (ws : List Char) (c : Char)
    (hws : isWSChar c = true) (hv : validPrim acc.reverse = true) :
    stepTok ⟨.inPrim acc, R, ws⟩ c = some ⟨.top, .prim acc.reverse :: R, [c]⟩ := by
  simp [stepTok, hws, hv]

/-- Processing the chunk of a non-primitive token from the committed (top)
state pushes exactly that token and leaves the token's whitespace
residue pending. -/
theorem chunk_nonprim (t : JTok) (e : EmitSt) (R : List JTok) (ws0 : List Char)
    (hwf : wfTok t) (hnp : ∀ p, t ≠ .prim p) :
    stepsTok ⟨.top, R, ws0⟩ (emitTok e t).1 = some ⟨.top, t :: R, wsResidue e t⟩ := by
  cases t with
  | prim p => exact absurd rfl (hnp p)
  | lbrace =>
    by_cases hni : e.needIndent
    · have hchunk : (emitTok e .lbrace).1 = nlIndent (e.depth + 1) ++ ['\x7b'] := by
        simp [emitTok, hni]
      rw [hchunk, stepsTok_append_some _ _ _ _ (stepsTok_ws _ _ _ (nlIndent_all_ws _))]
      rfl
    · have hchunk : (emitTok e .lbrace).1 = ['\x7b'] := by simp [emitTok, hni]
      rw [hchunk]
      rfl
  | lbrack =>
    by_cases hni : e.needIndent
    · have hchunk : (emitTok e .lbrack).1 = nlIndent (e.depth + 1) ++ ['['] := by
        simp [emitTok, hni]
      rw [hchunk, stepsTok_append_some _ _ _ _ (stepsTok_ws _ _ _ (nlIndent_all_ws _))]
      rfl
    · have hchunk : (emitTok e .lbrack).1 = ['['] := by simp [emitTok, hni]
      rw [hchunk]
      rfl
  | rbrace =>
    by_cases hni : e.needIndent
    · have hchunk : (emitTok e .rbrace).1 = ['\x7d'] := by simp [emitTok, hni]
      rw [hchunk]
      rfl
    · have hchunk : (emitTok e .rbrace).1 = nlIndent (e.depth - 1) ++ ['\x7d'] := by
        simp [emitTok, hni]
      rw [hchunk, stepsTok_append_some _ _ _ _ (stepsTok_ws _ _ _ (nlIndent_all_ws _))]
      rfl
  | rbrack =>
    by_cases hni : e.needIndent
    · have hchunk : (emitTok e .rbrack).1 = [']'] := by simp [emitTok, hni]
      rw [hchunk]
      rfl
    · have hchunk : (emitTok e .rbrack).1 = nlIndent (e.depth - 1) ++ [']'] := by
        simp [emitTok, hni]
      rw [hchunk, stepsTok_append_some _ _ _ _ (stepsTok_ws _ _ _ (nlIndent_all_ws _))]
      rfl
  | comma =>
    by_cases hni : e.needIndent
    · have hchunk : (emitTok e .comma).1
          = nlIndent (e.depth + 1) ++ ',' :: nlIndent (e.depth + 1) := by
        simp [emitTok, hni]
      rw [hchunk, stepsTok_append_some _ _ _ _ (stepsTok_ws _ _ _ (nlIndent_all_ws _))]
      have h0 : stepsTok ⟨.top, R, (nlIndent (e.depth + 1)).reverse ++ ws0⟩
            (',' :: nlIndent (e.depth + 1))
          = stepsTok ⟨.top, .comma :: R, []⟩ (nlIndent (e.depth + 1)) := rfl
      rw [h0, stepsTok_ws _ _ _ (nlIndent_all_ws _)]
      simp [wsResidue, hni]
    · have hchunk : (emitTok e .comma).1 = ',' :: nlIndent e.depth := by
        simp [emitTok, hni]
      rw [hchunk]
      have h0 : stepsTok ⟨.top, R, ws0⟩ (',' :: nlIndent e.depth)
          = stepsTok ⟨.top, .comma :: R, []⟩ (nlIndent e.depth) := rfl
      rw [h0, stepsTok_ws _ _ _ (nlIndent_all_ws _)]
      simp [wsResidue, hni]
  | colon =>
    by_cases hni : e.needIndent
    · have hchunk : (emitTok e .colon).1 = nlIndent (e.depth + 1) ++ [':', ' '] := by
        simp [emitTok, hni]
      rw [hchunk, stepsTok_append_some _ _ _ _ (stepsTok_ws _ _ _ (nlIndent_all_ws _))]
      rfl
    · have hchunk : (emitTok e .colon).1 = [':', ' '] := by simp [emitTok, hni]
      rw [hchunk]
      rfl
  | str b =>
    have hb : strRun .normal b = some .normal := hwf
    by_cases hni : e.needIndent
    · have hchunk : (emitTok e (.str b)).1
          = nlIndent (e.depth + 1) ++ ('"' :: (b ++ ['"'])) := by
        simp [emitTok, hni]
      rw [hchunk, stepsTok_append_some _ _ _ _ (stepsTok_ws _ _ _ (nlIndent_all_ws _))]
      rw [stepsTok_strChunk b R _ hb]
      rfl
    · have hchunk : (emitTok e (.str b)).1 = '"' :: (b ++ ['"']) := by
        simp [emitTok, hni]
      rw [hchunk, stepsTok_strChunk b R _ hb]
      rfl

/-- Processing the chunk of a primitive token from the committed state
leaves the scanner pending inside the primitive run. -/
theorem chunk_prim (p : List Char) (e : EmitSt) (R : List JTok) (ws0 : List Char)
    (hwf : wfTok (.prim p)) :
    stepsTok ⟨.top, R, ws0⟩ (emitTok e (.prim p)).1 = some ⟨.inPrim p.reverse, R, []⟩ := by
  by_cases hni : e.needIndent
  · have hchunk : (emitTok e (.prim p)).1 = nlIndent (e.depth + 1) ++ p := by
      simp [emitTok, hni]
    rw [hchunk, stepsTok_append_some _ _ _ _ (stepsTok_ws _ _ _ (nlIndent_all_ws _))]
    rw [stepsTok_primChunk p R _ hwf]
  · have hchunk : (emitTok e (.prim p)).1 = p := by simp [emitTok, hni]
    rw [hchunk, stepsTok_primChunk p R _ hwf]

/-- A comma chunk emitted with `needIndent = false` (the state after any
primitive) first terminates the pending primitive. -/
theorem afterPrim_comma (p : List Char) (d : Nat) (R : List JTok)
    (hv : validPrim p = true) :
    stepsTok ⟨.inPrim p.reverse, R, []⟩ (emitTok ⟨d, false⟩ .comma).1
      = some ⟨.top, .comma :: .prim p :: R, (nlIndent d).reverse⟩ := by
  have hv2 : validPrim p.reverse.reverse = true := by
    rw [List.reverse_reverse]
    exact hv
  have hchunk : (emitTok ⟨d, false⟩ .comma).1 = ',' :: nlIndent d := by simp [emitTok]
  rw [hchunk,
    stepsTok_cons_some _ _ _ _ (stepTok_prim_structural _ _ _ ',' rfl rfl hv2),
    stepsTok_ws _ _ _ (nlIndent_all_ws _)]
  simp [structTok, List.reverse_reverse]

theorem afterPrim_rbrace (p : List Char) (d : Nat) (R : List JTok)
    (hv : validPrim p = true) :
    stepsTok ⟨.inPrim p.reverse, R, []⟩ (emitTok ⟨d, false⟩ .rbrace).1
      = some ⟨.top, .rbrace :: .prim p :: R, []⟩ := by
  have hv2 : validPrim p.reverse.reverse = true := by
    rw [List.reverse_reverse]
    exact hv
  have hchunk : (emitTok ⟨d, false⟩ .rbrace).1 = nlIndent (d - 1) ++ ['\x7d'] := by
    simp [emitTok]
  have hsplit : nlIndent (d - 1) ++ ['\x7d']
      = '\n' :: (List.replicate (2 * (d - 1)) ' ' ++ ['\x7d']) := by
    simp [nlIndent]
  rw [hchunk, hsplit,
    stepsTok_cons_some _ _ _ _ (stepTok_prim_ws _ _ _ '\n' rfl hv2),
    stepsTok_append_some _ _ _ _ (stepsTok_ws _ _ _ (replicate_space_all_ws _))]
  simp only [List.reverse_reverse]
  rfl

theorem afterPrim_rbrack (p : List Char) (d : Nat) (R : List JTok)
    (hv : validPrim p = true) :
    stepsTok ⟨.inPrim p.reverse, R, []⟩ (emitTok ⟨d, false⟩ .rbrack).1
      = some ⟨.top, .rbrack :: .prim p :: R, []⟩ := by
  have hv2 : validPrim p.reverse.reverse = true := by
    rw [List.reverse_reverse]
    exact hv
  have hchunk : (emitTok ⟨d, false⟩ .rbrack).1 = nlIndent (d - 1) ++ [']'] := by
    simp [emitTok]
  have hsplit : nlIndent (d - 1) ++ [']']
      = '\n' :: (List.replicate (2 * (d - 1)) ' ' ++ [']']) := by
    simp [nlIndent]
  rw [hchunk, hsplit,
    stepsTok_cons_some _ _ _ _ (stepTok_prim_ws _ _ _ '\n' rfl hv2),
    stepsTok_append_some _ _ _ _ (stepsTok_ws _ _ _ (replicate_space_all_ws _))]
  simp only [List.reverse_reverse]
  rfl

/-- Finishing the scan from a pending primitive over trailing whitespace. -/
theorem finishAfterPrim (p : List Char) (R : List JTok) (trail : List Char)
    (hv : validPrim p = true) (htr : trail.all isWSChar = true) :
    (stepsTok ⟨.inPrim p.reverse, R, []⟩ trail).bind finishTok
      = some ((JTok.prim p :: R).reverse, trail) := by
  have hv2 : validPrim p.reverse.reverse = true := by
    rw [List.reverse_reverse]
    exact hv
  cases trail with
  | nil =>
    simp [stepsTok, finishTok, hv, hv2, List.reverse_reverse]
  | cons c rest =>
    simp only [List.all_cons, Bool.and_eq_true] at htr
    rw [stepsTok_cons_some _ _ _ _ (stepTok_prim_ws _ _ _ c htr.1 hv2),
      stepsTok_ws _ _ _ htr.2]
    simp [finishTok, List.reverse_reverse, List.reverse_append]

/-! ### The re-scan theorem: scanning the emitted text of a valid stream of
well-formed tokens recovers exactly those tokens and the trailing
whitespace. -/

theorem rescanNil (g : GSt) (e : EmitSt) (R : List JTok) (ws0 trail : List Char)
    (hg : gRun g [] = some ⟨[], .done⟩) (htr : trail.all isWSChar = true)
    (hws0 : ws0 = [] ∨ g.mode = .value ∨ g.mode = .keyRequired) :
    (stepsTok ⟨.top, R, ws0⟩ (emitToks e [] ++ trail)).bind finishTok
      = some ((([] : List JTok).reverse ++ R).reverse, trail) := by
  simp only [gRun] at hg
  injection hg with hg
  subst hg
  have hws : ws0 = [] := by
    rcases hws0 with h | h | h
    · exact h
    · exact absurd h (by decide)
    · exact absurd h (by decide)
  subst hws
  rw [show emitToks e [] = [] from rfl, List.nil_append]
  rw [stepsTok_ws _ _ _ htr]
  simp [finishTok, List.reverse_reverse]

theorem rescanAux (n : Nat) :
    ∀ (ts : List JTok), ts.length ≤ n →
      ∀ (g : GSt) (e : EmitSt) (R : List JTok) (ws0 trail : List Char),
        gRun g ts = some ⟨[], .done⟩ →
        (∀ t ∈ ts, wfTok t) →
        trail.all isWSChar = true →
        (ws0 = [] ∨ g.mode = .value ∨ g.mode = .keyRequired) →
        (stepsTok ⟨.top, R, ws0⟩ (emitToks e ts ++ trail)).bind finishTok
          = some ((ts.reverse ++ R).reverse, trail) := by
  induction n with
  | zero =>
    intro ts hlen g e R ws0 trail hg hwf htr hws0
    have hts : ts = [] := List.length_eq_zero.mp (Nat.le_zero.mp hlen)
    subst hts
    exact rescanNil g e R ws0 trail hg htr hws0
  | succ n ih =>
    intro ts hlen g e R ws0 trail hg hwf htr hws0
    cases ts with
    | nil => exact rescanNil g e R ws0 trail hg htr hws0
    | cons t ts2 =>
      simp only [gRun] at hg
      cases hgs : gStep g t with
      | none => rw [hgs] at hg; cases hg
      | some g2 =>
        rw [hgs] at hg
        have hwft := hwf t (by simp)
        rw [show emitToks e (t :: ts2)
            = (emitTok e t).1 ++ emitToks (emitTok e t).2 ts2 from rfl,
          List.append_assoc]
        by_cases hprim : ∃ p, t = .prim p
        · obtain ⟨p, rfl⟩ := hprim
          have hv : validPrim p = true := hwft.2.2.2
          rw [stepsTok_append_some _ _ _ _ (chunk_prim p e R ws0 hwft)]
          have he2 : (emitTok e (.prim p)).2
              = ⟨if e.needIndent then e.depth + 1 else e.depth, false⟩ := by
            simp [emitTok]
          have hg2m := gStep_prim_after g g2 p hgs
          cases ts2 with
          | nil =>
            rw [show emitToks (emitTok e (.prim p)).2 [] = [] from rfl, List.nil_append]
            rw [finishAfterPrim p R trail hv htr]
            simp
          | cons t2 ts3 =>
            simp only [gRun] at hg
            cases hgs2 : gStep g2 t2 with
            | none => rw [hgs2] at hg; cases hg
            | some g3 =>
              rw [hgs2] at hg
              have hmode2 : g2.mode = .commaOrEndObj ∨ g2.mode = .commaOrEndArr := by
                rcases hg2m with h | h | h
                · rw [gStep_done_none g2 t2 h] at hgs2
                  cases hgs2
                · exact Or.inl h
                · exact Or.inr h
              have ht2 := gStep_afterValue_tok g2 g3 t2 hmode2 hgs2
              rw [he2]
              have hlen3 : ts3.length ≤ n := by
                simp only [List.length_cons] at hlen
                omega
              have hwf3 : ∀ x ∈ ts3, wfTok x := fun x hx =>
                hwf x (List.mem_cons_of_mem _ (List.mem_cons_of_mem _ hx))
              rcases ht2 with rfl | rfl | rfl
              · rw [show emitToks (⟨if e.needIndent then e.depth + 1 else e.depth,
                    false⟩ : EmitSt) (.comma :: ts3)
                    = (emitTok ⟨if e.needIndent then e.depth + 1 else e.depth,
                        false⟩ .comma).1
                      ++ emitToks (emitTok ⟨if e.needIndent then e.depth + 1
                        else e.depth, false⟩ .comma).2 ts3 from rfl,
                  List.append_assoc]
                rw [stepsTok_append_some _ _ _ _ (afterPrim_comma p _ R hv)]
                rw [ih ts3 hlen3 g3 _ (.comma :: .prim p :: R) _ trail hg hwf3 htr
                  (Or.inr (gStep_comma_after g2 g3 hgs2))]
                simp
              · rw [show emitToks (⟨if e.needIndent then e.depth + 1 else e.depth,
                    false⟩ : EmitSt) (.rbrace :: ts3)
                    = (emitTok ⟨if e.needIndent then e.depth + 1 else e.depth,
                        false⟩ .rbrace).1
                      ++ emitToks (emitTok ⟨if e.needIndent then e.depth + 1
                        else e.depth, false⟩ .rbrace).2 ts3 from rfl,
                  List.append_assoc]
                rw [stepsTok_append_some _ _ _ _ (afterPrim_rbrace p _ R hv)]
                rw [ih ts3 hlen3 g3 _ (.rbrace :: .prim p :: R) _ trail hg hwf3 htr
                  (Or.inl rfl)]
                simp
              · rw [show emitToks (⟨if e.needIndent then e.depth + 1 else e.depth,
                    false⟩ : EmitSt) (.rbrack :: ts3)
                    = (emitTok ⟨if e.needIndent then e.depth + 1 else e.depth,
                        false⟩ .rbrack).1
                      ++ emitToks (emitTok ⟨if e.needIndent then e.depth + 1
                        else e.depth, false⟩ .rbrack).2 ts3 from rfl,
                  List.append_assoc]
                rw [stepsTok_append_some _ _ _ _ (afterPrim_rbrack p _ R hv)]
                rw [ih ts3 hlen3 g3 _ (.rbrack :: .prim p :: R) _ trail hg hwf3 htr
                  (Or.inl rfl)]
                simp
        · have hnp : ∀ p, t ≠ .prim p := by
            intro p hp
            exact hprim ⟨p, hp⟩
          rw [stepsTok_append_some _ _ _ _ (chunk_nonprim t e R ws0 hwft hnp)]
          have hinv2 : wsResidue e t = [] ∨ g2.mode = .value ∨ g2.mode = .keyRequired := by
            cases t with
            | comma => exact Or.inr (gStep_comma_after g g2 hgs)
            | colon => exact Or.inr (Or.inl (gStep_colon_after g g2 hgs))
            | prim p => exact absurd rfl (hnp p)
            | lbrace => exact Or.inl rfl
            | lbrack => exact Or.inl rfl
            | rbrace => exact Or.inl rfl
            | rbrack => exact Or.inl rfl
            | str b => exact Or.inl rfl
          have hlen2 : ts2.length ≤ n := by
            simp only [List.length_cons] at hlen
            omega
          have hwf2 : ∀ x ∈ ts2, wfTok x := fun x hx => hwf x (List.mem_cons_of_mem _ hx)
          rw [ih ts2 hlen2 g2 (emitTok e t).2 (t :: R) (wsResidue e t) trail hg hwf2
            htr hinv2]
          simp

theorem checkJSON_gRun (ts : List JTok) (h : checkJSON ts = true) :
    gRun gSt0 ts = some ⟨[], .done⟩ := by
  unfold checkJSON at h
  simpa using h

/-- The modelled `json.Indent` is idempotent: indenting its own output
succeeds and reproduces it unchanged. -/
theorem indentGo_idem (s t : String) (h : indentGo s = some t) : indentGo t = some t := by
  unfold indentGo at h
  cases htok : tokenize s.data with
  | none => rw [htok] at h; cases h
  | some pair =>
    obtain ⟨ts, trail⟩ := pair
    rw [htok] at h
    change (if checkJSON ts = true then some ((emitToks emitSt0 ts ++ trail).asString)
      else none) = some t at h
    by_cases hchk : checkJSON ts = true
    · rw [if_pos hchk] at h
      injection h with h
      obtain ⟨hwf, htr⟩ := tokenize_wf s.data ts trail htok
      have hg := checkJSON_gRun ts hchk
      have hrescan := rescanAux ts.length ts (le_refl _) gSt0 emitSt0 [] [] trail hg
        hwf htr (Or.inl rfl)
      have hdata : t.data = emitToks emitSt0 ts ++ trail := by
        rw [← h]
        rfl
      have htok2 : tokenize (emitToks emitSt0 ts ++ trail) = some (ts, trail) := by
        unfold tokenize
        cases hst : stepsTok tokSt0 (emitToks emitSt0 ts ++ trail) with
        | none =>
          rw [show tokSt0 = (⟨.top, [], []⟩ : TokSt) from rfl] at hst
          rw [hst] at hrescan
          cases hrescan
        | some st =>
          rw [show tokSt0 = (⟨.top, [], []⟩ : TokSt) from rfl] at hst
          rw [hst] at hrescan
          simpa using hrescan
      unfold indentGo
      rw [hdata, htok2]
      change (if checkJSON ts = true then some ((emitToks emitSt0 ts ++ trail).asString)
        else none) = some t
      rw [if_pos hchk]
      rw [show (emitToks emitSt0 ts ++ trail).asString = t from h]
    · rw [if_neg hchk] at h
      cases h

/-! ### Finalization is idempotent. -/

theorem setToolInput_kind (b : ChatBlock) (x : String) :
    (b.setToolInput x).kind = b.kind := by
  cases b
  rfl

theorem setToolInput_toolInput (b : ChatBlock) (x : String) :
    (b.setToolInput x).toolInput = x := by
  cases b
  rfl

theorem setToolInput_isTask (b : ChatBlock) (x : String) :
    (b.setToolInput x).isTask = b.isTask := by
  cases b
  rfl

theorem setToolInput_eq_self (b : ChatBlock) (x : String) (h : b.toolInput = x) :
    b.setToolInput x = b := by
  cases b
  simp only [ChatBlock.toolInput] at h
  subst h
  rfl

theorem parseTaskInput_kind (cb : ChatBlock) (s : String) :
    (parseTaskInput cb s).kind = cb.kind := by
  unfold parseTaskInput
  cases parseTaskFields s with
  | none => rfl
  | some f => cases cb; rfl

theorem parseTaskInput_toolInput (cb : ChatBlock) (s : String) :
    (parseTaskInput cb s).toolInput = cb.toolInput := by
  unfold parseTaskInput
  cases parseTaskFields s with
  | none => rfl
  | some f => cases cb; rfl

theorem parseTaskInput_isTask (cb : ChatBlock) (s : String) :
    (parseTaskInput cb s).isTask = cb.isTask := by
  unfold parseTaskInput
  cases parseTaskFields s with
  | none => rfl
  | some f => cases cb; rfl

theorem parseTaskInput_idem (cb : ChatBlock) (s : String) :
    parseTaskInput (parseTaskInput cb s) s = parseTaskInput cb s := by
  unfold parseTaskInput
  cases parseTaskFields s with
  | none => rfl
  | some f => cases cb; rfl

theorem finalizeBlock_idem (b : ChatBlock) :
    finalizeBlock (finalizeBlock b) = finalizeBlock b := by
  by_cases hc : b.kind = "tool_use" ∧ b.toolInput ≠ ""
  case neg =>
    have h1 : finalizeBlock b = b := by simp only [finalizeBlock, if_neg hc]
    rw [h1]
    exact h1
  case pos =>
  cases hind : indentGo b.toolInput with
  | some t =>
    have hidem := indentGo_idem _ _ hind
    have hfb1 : finalizeBlock b
        = if (b.setToolInput t).isTask = true
          then parseTaskInput (b.setToolInput t) (b.setToolInput t).toolInput
          else b.setToolInput t := by
      simp only [finalizeBlock, if_pos hc, hind]
    by_cases hts : (b.setToolInput t).isTask = true
    · have hfb : finalizeBlock b = parseTaskInput (b.setToolInput t) t := by
        rw [hfb1, if_pos hts, setToolInput_toolInput]
      rw [hfb]
      have hfbk : (parseTaskInput (b.setToolInput t) t).kind = "tool_use" := by
        rw [parseTaskInput_kind, setToolInput_kind]
        exact hc.1
      have hfbi : (parseTaskInput (b.setToolInput t) t).toolInput = t := by
        rw [parseTaskInput_toolInput, setToolInput_toolInput]
      have hfbt : (parseTaskInput (b.setToolInput t) t).isTask = true := by
        rw [parseTaskInput_isTask]
        exact hts
      by_cases htne : t = ""
      · have hnc : ¬ ((parseTaskInput (b.setToolInput t) t).kind = "tool_use"
            ∧ (parseTaskInput (b.setToolInput t) t).toolInput ≠ "") := by
          rintro ⟨_, hne⟩
          rw [hfbi] at hne
          exact hne htne
        simp only [finalizeBlock, if_neg hnc]
      · have hcond : (parseTaskInput (b.setToolInput t) t).kind = "tool_use"
            ∧ (parseTaskInput (b.setToolInput t) t).toolInput ≠ "" :=
          ⟨hfbk, by rw [hfbi]; exact htne⟩
        have hind2 : indentGo (parseTaskInput (b.setToolInput t) t).toolInput = some t := by
          rw [hfbi]
          exact hidem
        have hset : (parseTaskInput (b.setToolInput t) t).setToolInput t
            = parseTaskInput (b.setToolInput t) t := setToolInput_eq_self _ t hfbi
        have hfb2 : finalizeBlock (parseTaskInput (b.setToolInput t) t)
            = if ((parseTaskInput (b.setToolInput t) t).setToolInput t).isTask = true
              then parseTaskInput ((parseTaskInput (b.setToolInput t) t).setToolInput t)
                ((parseTaskInput (b.setToolInput t) t).setToolInput t).toolInput
              else (parseTaskInput (b.setToolInput t) t).setToolInput t := by
          simp only [finalizeBlock, if_pos hcond, hind2]
        rw [hfb2, hset, if_pos hfbt, hfbi]
        exact parseTaskInput_idem _ _
    · have hfb : finalizeBlock b = b.setToolInput t := by
        rw [hfb1, if_neg hts]
      rw [hfb]
      have hfbi : (b.setToolInput t).toolInput = t := setToolInput_toolInput b t
      by_cases htne : t = ""
      · have hnc : ¬ ((b.setToolInput t).kind = "tool_use"
            ∧ (b.setToolInput t).toolInput ≠ "") := by
          rintro ⟨_, hne⟩
          rw [hfbi] at hne
          exact hne htne
        simp only [finalizeBlock, if_neg hnc]
      · have hcond : (b.setToolInput t).kind = "tool_use"
            ∧ (b.setToolInput t).toolInput ≠ "" := by
          refine ⟨?_, ?_⟩
          · rw [setToolInput_kind]
            exact hc.1
          · rw [hfbi]
            exact htne
        have hind2 : indentGo (b.setToolInput t).toolInput = some t := by
          rw [hfbi]
          exact hidem
        have hset : (b.setToolInput t).setToolInput t = b.setToolInput t :=
          setToolInput_eq_self _ t hfbi
        have hfb2 : finalizeBlock (b.setToolInput t)
            = if ((b.setToolInput t).setToolInput t).isTask = true
              then parseTaskInput ((b.setToolInput t).setToolInput t)
                ((b.setToolInput t).setToolInput t).toolInput
              else (b.setToolInput t).setToolInput t := by
          simp only [finalizeBlock, if_pos hcond, hind2]
        rw [hfb2, hset, if_neg hts]
  | none =>
    have hfb1 : finalizeBlock b
        = if b.isTask = true then parseTaskInput b b.toolInput else b := by
      simp only [finalizeBlock, if_pos hc, hind]
    by_cases hts : b.isTask = true
    · have hfb : finalizeBlock b = parseTaskInput b b.toolInput := by
        rw [hfb1, if_pos hts]
      rw [hfb]
      have hfbk : (parseTaskInput b b.toolInput).kind = "tool_use" := by
        rw [parseTaskInput_kind]
        exact hc.1
      have hfbi : (parseTaskInput b b.toolInput).toolInput = b.toolInput :=
        parseTaskInput_toolInput b _
      have hfbt : (parseTaskInput b b.toolInput).isTask = true := by
        rw [parseTaskInput_isTask]
        exact hts
      have hcond : (parseTaskInput b b.toolInput).kind = "tool_use"
          ∧ (parseTaskInput b b.toolInput).toolInput ≠ "" :=
        ⟨hfbk, by rw [hfbi]; exact hc.2⟩
      have hind2 : indentGo (parseTaskInput b b.toolInput).toolInput = none := by
        rw [hfbi]
        exact hind
      have hfb2 : finalizeBlock (parseTaskInput b b.toolInput)
          = if (parseTaskInput b b.toolInput).isTask = true
            then parseTaskInput (parseTaskInput b b.toolInput)
              (parseTaskInput b b.toolInput).toolInput
            else parseTaskInput b b.toolInput := by
        simp only [finalizeBlock, if_pos hcond, hind2]
      rw [hfb2, if_pos hfbt, hfbi]
      exact parseTaskInput_idem _ _
    · have hfb : finalizeBlock b = b := by
        rw [hfb1, if_neg hts]
      rw [hfb]
      exact hfb

/-- C8: finalization is idempotent.  For every block list, applying the
finalization step (re-indenting each tool-use block's non-empty accumulated
input JSON with stable two-space indentation and, for delegation blocks,
re-deriving description / subagent-type / prompt from that JSON) twice
produces the same block list as applying it once. -/
theorem finalize_idempotent (bs : List ChatBlock) :
    finalizeBlocks (finalizeBlocks bs) = finalizeBlocks bs := by
  unfold finalizeBlocks
  rw [List.map_map]
  exact List.map_congr_left (fun b _ => finalizeBlock_idem b)

end Flawdcode
